import Mathlib

/-!
Verification of the epub-cleanup engine (span merger, chapter-heading
inserter, number formatter) against its natural-language specification.

The code under verification lives in `calibre-plugin/cleanup.py` (the plugin
implementation) and `epub_cleanup.py` (the standalone implementation).  Both
operate, via BeautifulSoup, on a mutable tree of elements and text nodes.
We model that tree shallowly as the inductive type `Node` below: an element
node carries its tag name, its attribute list and its ordered children; a
text node carries its raw string.  Parsing and serialisation of documents
are external collaborators (BeautifulSoup / lxml) and are not modelled: the
engine functions are embedded as tree-to-tree transformations.

Strings are modelled as Lean `String`s restricted to the ASCII behaviour of
the Python operations used by the code (`str.strip`, the regex classes
`\s`, `\d`, `[IVX]`, `[A-Z]`, `[a-z]`, and `str.lower` case folding).
-/

namespace EpubCleanup

/-- Document tree node: either a text node (BeautifulSoup `NavigableString`)
or an element (`Tag`) with tag name, attribute list and ordered children. -/
inductive Node where
  | text : String → Node
  | elem : String → List (String × String) → List Node → Node

/-- Attribute lookup, modelling `tag.get(key)` / `tag.has_attr(key)` on the
attribute dictionary (first binding wins). -/
def getAttr (a : List (String × String)) (k : String) : Option String :=
  (a.find? (fun p => p.1 = k)).map (fun p => p.2)

/-- Attribute update, modelling `tag[key] = value` (replace an existing
binding, else append). -/
def setAttr (a : List (String × String)) (k v : String) : List (String × String) :=
  if (a.find? (fun p => p.1 = k)).isSome then
    a.map (fun p => if p.1 = k then (k, v) else p)
  else a ++ [(k, v)]

/-- Attribute deletion, modelling `del tag[key]`. -/
def removeAttr (a : List (String × String)) (k : String) : List (String × String) :=
  a.filter (fun p => p.1 ≠ k)

/-- ASCII whitespace characters recognised by Python `str.strip` and the
regex class `\s` (space, tab, newline, carriage return, vertical tab,
form feed). -/
def pyIsSpace (c : Char) : Bool :=
  c = ' ' || c = '\t' || c = '\n' || c = '\r' || c = '\x0b' || c = '\x0c'

/-- Whether `str(node).strip() == ''` holds for a text node, i.e. the string
consists only of whitespace. -/
def wsOnly (s : String) : Bool := s.data.all pyIsSpace

/-- Python `text.strip()`: remove leading and trailing whitespace. -/
def pyStrip (s : String) : String :=
  ⟨((s.data.dropWhile pyIsSpace).reverse.dropWhile pyIsSpace).reverse⟩

/-- Whitespace normalisation performed by the plugin span merger
(`cleanup.py` line 92): `text.replace('\n', ' ').replace('\r', ' ')`. -/
def normWS (s : String) : String :=
  ⟨s.data.map (fun c => if c = '\n' || c = '\r' then ' ' else c)⟩

mutual

/-- Total size of a node (number of tree nodes), the termination measure for
tree recursions. -/
def size : Node → Nat
  | .text _ => 1
  | .elem _ _ cs => 1 + sizeL cs

/-- Total size of a list of sibling nodes. -/
def sizeL : List Node → Nat
  | [] => 0
  | c :: cs => size c + sizeL cs

end

mutual

/-- Number of `span` elements in a subtree, modelling
`len(soup.find_all('span'))` restricted to that subtree. -/
def spanCountN : Node → Nat
  | .text _ => 0
  | .elem tag _ cs => (if tag = "span" then 1 else 0) + spanCountL cs

/-- Number of `span` elements among a list of siblings and their subtrees. -/
def spanCountL : List Node → Nat
  | [] => 0
  | c :: cs => spanCountN c + spanCountL cs

end

mutual

/-- Extracted text of a node, modelling BeautifulSoup `tag.get_text()`:
concatenation of all descendant text nodes in document order. -/
def getText : Node → String
  | .text s => s
  | .elem _ _ cs => getTextL cs

/-- Concatenated extracted text of a list of siblings. -/
def getTextL : List Node → String
  | [] => ""
  | c :: cs => getText c ++ getTextL cs

end

mutual

/-- Decidable equality of nodes. -/
def decEqNode : (a b : Node) → Decidable (a = b)
  | .text s, .text t =>
    match String.decEq s t with
    | isTrue h => isTrue (by rw [h])
    | isFalse h => isFalse (by intro hh; cases hh; exact h rfl)
  | .text _, .elem _ _ _ => isFalse (by intro h; exact Node.noConfusion h)
  | .elem _ _ _, .text _ => isFalse (by intro h; exact Node.noConfusion h)
  | .elem t1 a1 c1, .elem t2 a2 c2 =>
    match String.decEq t1 t2 with
    | isFalse h => isFalse (by intro hh; cases hh; exact h rfl)
    | isTrue h1 =>
      match List.hasDecEq a1 a2 with
      | isFalse h => isFalse (by intro hh; cases hh; exact h rfl)
      | isTrue h2 =>
        match decEqListNode c1 c2 with
        | isFalse h => isFalse (by intro hh; cases hh; exact h rfl)
        | isTrue h3 => isTrue (by rw [h1, h2, h3])

/-- Decidable equality of node lists. -/
def decEqListNode : (as bs : List Node) → Decidable (as = bs)
  | [], [] => isTrue rfl
  | [], _ :: _ => isFalse (by intro h; exact List.noConfusion h)
  | _ :: _, [] => isFalse (by intro h; exact List.noConfusion h)
  | a :: as, b :: bs =>
    match decEqNode a b with
    | isFalse h => isFalse (by intro hh; cases hh; exact h rfl)
    | isTrue h1 =>
      match decEqListNode as bs with
      | isFalse h => isFalse (by intro hh; cases hh; exact h rfl)
      | isTrue h2 => isTrue (by rw [h1, h2])

end

instance : DecidableEq Node := decEqNode

/-! ## Span merger

`merge_consecutive_spans` (cleanup.py lines 9-123, epub_cleanup.py lines
18-130) scans `soup.find_all('span')` in document order with an index that
is not advanced after a merge; at each styled span it greedily collects the
run of following same-style sibling spans across whitespace-only text
nodes, concatenates the run's children (copying the intervening whitespace,
in the plugin version normalised by `normWS`) into the first span, and
removes the other run members and the separators.

The scan over one sibling list is embedded by the mutually recursive pair
`mergePass`/`chase` below.  `chase` is the inner `while next_sibling` loop
of the source starting from a styled span (style `s`, attributes `a`,
children collected so far `acc`, pending whitespace separators `gap`):
whitespace-only text extends the pending gap, a same-style span is merged
(gap copied through `nrm`, then the span's children), and anything else
ends the run, emitting the current span, the pending gap verbatim, and the
processed continuation.  Because a merge leaves the scan index in place and
the re-check of the merged span finds its run breaker unchanged, one
left-to-right pass with maximal runs is exactly the source's scan of one
sibling list; descendants are processed afterwards in document order, which
`mergeNodeF` below performs by recursing into the post-merge children.

The parameter `nrm` is the whitespace-separator copy: `normWS` in the
plugin version (cleanup.py line 92), the identity in the standalone version
(epub_cleanup.py line 100), which copies the separator verbatim. -/

mutual

/-- One scan of a sibling list, returning the processed list and whether
any merge occurred. -/
def mergePass (nrm : String → String) : List Node → List Node × Bool
  | [] => ([], false)
  | .text w :: rest =>
    let r := mergePass nrm rest
    (.text w :: r.1, r.2)
  | .elem tag a cs :: rest =>
    if tag = "span" then
      match getAttr a "style" with
      | some s => chase nrm s a cs [] false rest
      | none =>
        let r := mergePass nrm rest
        (.elem tag a cs :: r.1, r.2)
    else
      let r := mergePass nrm rest
      (.elem tag a cs :: r.1, r.2)

/-- Run collection and merge from a styled span (the inner sibling walk of
the source), fused with the continuation of the scan. -/
def chase (nrm : String → String) (s : String) (a : List (String × String))
    (acc : List Node) (gap : List String) (merged : Bool) :
    List Node → List Node × Bool
  | [] => (.elem "span" a acc :: gap.map Node.text, merged)
  | .text w :: rest =>
    if wsOnly w then
      chase nrm s a acc (gap ++ [w]) merged rest
    else
      let r := mergePass nrm rest
      (.elem "span" a acc :: (gap.map Node.text ++ .text w :: r.1), merged || r.2)
  | .elem tag2 a2 cs2 :: rest =>
    if tag2 = "span" then
      match getAttr a2 "style" with
      | some s2 =>
        if s2 = s then
          chase nrm s a (acc ++ gap.map (fun g => Node.text (nrm g)) ++ cs2) [] true rest
        else
          let r := chase nrm s2 a2 cs2 [] false rest
          (.elem "span" a acc :: (gap.map Node.text ++ r.1), merged || r.2)
      | none =>
        let r := mergePass nrm rest
        (.elem "span" a acc :: (gap.map Node.text ++ .elem tag2 a2 cs2 :: r.1), merged || r.2)
    else
      let r := mergePass nrm rest
      (.elem "span" a acc :: (gap.map Node.text ++ .elem tag2 a2 cs2 :: r.1), merged || r.2)

end

/-- Tree-level span merging: one `mergePass` over each sibling list, then
recursion into the (post-merge) children, matching the source's
document-order scan.  Structured with explicit fuel so that the definition
is structurally recursive; `size` fuel always suffices (proved below). -/
def mergeNodeF (nrm : String → String) : Nat → Node → Node × Bool
  | 0, n => (n, false)
  | _ + 1, .text s => (.text s, false)
  | f + 1, .elem t a cs =>
    let p := mergePass nrm cs
    let rs := p.1.map (fun c => mergeNodeF nrm f c)
    (.elem t a (rs.map Prod.fst), p.2 || rs.any Prod.snd)

/-- Span merging on a whole tree. -/
def mergeNode (nrm : String → String) (n : Node) : Node × Bool :=
  mergeNodeF nrm (size n) n

/-- Plugin implementation `merge_consecutive_spans` (cleanup.py lines
9-123): intervening whitespace separators are copied with newline and
carriage-return characters replaced by spaces. -/
def merge_consecutive_spans (n : Node) : Node × Bool := mergeNode normWS n

/-- Standalone implementation `merge_consecutive_spans` (epub_cleanup.py
lines 18-130): identical except that intervening whitespace separators are
copied verbatim (epub_cleanup.py line 100 has no `replace` calls). -/
def merge_consecutive_spans_std (n : Node) : Node × Bool := mergeNode id n

/-! ## The scan loop itself

For the termination claim about the source's scan loop (`while i <
len(spans)` with the index held in place and the span list recomputed after
every merge, cleanup.py lines 24-121), the loop is embedded directly:
`stepL cs i` performs the body of one iteration at span index `i` (spans
numbered in document order, as `soup.find_all('span')` returns them),
returning the new sibling forest when a merge happened and `none` when the
scan just advances, and `mergeLoopF` is the driving loop with explicit
fuel. -/

/-- Tail of a same-style run starting after a styled span: the extra
children to append to the first span (separators copied through `nrm`, then
each merged span's children) and the remaining siblings, or `none` when no
same-style span follows (run of length 1). -/
def collectRun1 (nrm : String → String) (s : String) (gap : List String) :
    List Node → Option (List Node × List Node)
  | [] => none
  | .text w :: rest =>
    if wsOnly w then collectRun1 nrm s (gap ++ [w]) rest else none
  | .elem tag2 a2 cs2 :: rest =>
    if tag2 = "span" then
      match getAttr a2 "style" with
      | some s2 =>
        if s2 = s then
          some (match collectRun1 nrm s [] rest with
            | some r => (gap.map (fun g => Node.text (nrm g)) ++ cs2 ++ r.1, r.2)
            | none => (gap.map (fun g => Node.text (nrm g)) ++ cs2, rest))
        else none
      | none => none
    else none

mutual

/-- One iteration of the scan when the span at (local) index `i` lies in
the head node `c` of `c :: rest`: if `c` is that span itself, merge its run
(which extends into `rest`) when it has length > 1; otherwise descend into
the children of `c`. -/
def stepN (nrm : String → String) : Node → List Node → Nat → Option (List Node)
  | .text _, _, _ => none
  | .elem tag a ch, rest, i =>
    if tag = "span" then
      if i = 0 then
        match getAttr a "style" with
        | some s =>
          (match collectRun1 nrm s [] rest with
           | some r => some (.elem "span" a (ch ++ r.1) :: r.2)
           | none => none)
        | none => none
      else (stepL nrm ch (i - 1)).map (fun r => Node.elem tag a r :: rest)
    else (stepL nrm ch i).map (fun r => Node.elem tag a r :: rest)

/-- One iteration of the scan at span index `i` (document order) within a
sibling forest: merge the run starting at that span if it has length > 1
(`some` of the updated forest), else report no change (`none`, after which
the loop advances the index). -/
def stepL (nrm : String → String) : List Node → Nat → Option (List Node)
  | [], _ => none
  | c :: rest, i =>
    if i < spanCountN c then stepN nrm c rest i
    else (stepL nrm rest (i - spanCountN c)).map (fun r => c :: r)

end

/-- The source's scan loop over a sibling forest: at index `i`, if a merge
happens the index stays and the span list is recomputed, otherwise the
index advances; the loop returns the final forest and the changes flag once
the index passes the number of spans.  `none` means the fuel ran out. -/
def mergeLoopF (nrm : String → String) : Nat → List Node → Nat → Bool → Option (List Node × Bool)
  | 0, _, _, _ => none
  | f + 1, cs, i, ch =>
    if i < spanCountL cs then
      match stepL nrm cs i with
      | some cs2 => mergeLoopF nrm f cs2 i true
      | none => mergeLoopF nrm f cs (i + 1) ch
    else some (cs, ch)

/-- The scan loop of `merge_consecutive_spans` run on a document tree. -/
def merge_loop (nrm : String → String) (fuel : Nat) : Node → Option (Node × Bool)
  | .text s => some (.text s, false)
  | .elem t a cs => (mergeLoopF nrm fuel cs 0 false).map (fun r => (Node.elem t a r.1, r.2))

/-! ## Merge-freedom predicates -/

/-- No same-style span follows at this position across whitespace-only
text: a span with style `s` whose following siblings are `l` starts a run
of length 1. -/
def noRun (s : String) : List Node → Bool
  | [] => true
  | .text w :: rest => if wsOnly w then noRun s rest else true
  | .elem tag2 a2 _ :: _ =>
    if tag2 = "span" then
      match getAttr a2 "style" with
      | some s2 => !(s2 = s : Bool)
      | none => true
    else true

/-- Every styled span in the sibling list starts a run of length 1 (no
merge is possible at this level). -/
def noMergeList : List Node → Bool
  | [] => true
  | .text _ :: rest => noMergeList rest
  | .elem tag a _ :: rest =>
    (if tag = "span" then
      match getAttr a "style" with
      | some s => noRun s rest
      | none => true
    else true) && noMergeList rest

mutual

/-- No text node in the subtree contains a newline or carriage-return
character. -/
def cleanN : Node → Bool
  | .text s => s.data.all (fun c => !(c = '\n' || c = '\r'))
  | .elem _ _ cs => cleanL cs

/-- No text node in the forest contains a newline or carriage return. -/
def cleanL : List Node → Bool
  | [] => true
  | c :: cs => cleanN c && cleanL cs

end

/-! ## Generic tree search and first-match replacement

BeautifulSoup's `soup.find(...)` returns the first matching node in
document order (a node before its descendants, descendants before later
siblings).  The heading pass uses it twice: `soup.find('body')` and
`soup.find(attrs={'data-chapter-placeholder': 'true'})`, each time mutating
the found node in place; `replaceFirstR` models find-and-mutate, returning
`none` when no node matches. -/

mutual

/-- First node in document order satisfying `p`. -/
def findFirst (p : Node → Bool) : Node → Option Node
  | .text s => if p (.text s) then some (.text s) else none
  | .elem t a cs => if p (.elem t a cs) then some (.elem t a cs) else findFirstL p cs

/-- First node in document order within a forest satisfying `p`. -/
def findFirstL (p : Node → Bool) : List Node → Option Node
  | [] => none
  | c :: rest =>
    match findFirst p c with
    | some r => some r
    | none => findFirstL p rest

end

mutual

/-- Whether some node in the subtree satisfies `p`. -/
def containsN (p : Node → Bool) : Node → Bool
  | .text s => p (.text s)
  | .elem t a cs => p (.elem t a cs) || containsL p cs

/-- Whether some node in the forest satisfies `p`. -/
def containsL (p : Node → Bool) : List Node → Bool
  | [] => false
  | c :: rest => containsN p c || containsL p rest

end

mutual

/-- Replace the first node (document order) satisfying `p` by the first
component of `f` applied to it, returning the updated tree and the second
component; `none` when no node matches. -/
def replaceFirstR {α : Type} (p : Node → Bool) (f : Node → Node × α) : Node → Option (Node × α)
  | .text s => if p (.text s) then some (f (.text s)) else none
  | .elem t a cs =>
    if p (.elem t a cs) then some (f (.elem t a cs))
    else (replaceFirstRL p f cs).map (fun r => (Node.elem t a r.1, r.2))

/-- First-match replacement within a forest. -/
def replaceFirstRL {α : Type} (p : Node → Bool) (f : Node → Node × α) :
    List Node → Option (List Node × α)
  | [] => none
  | c :: rest =>
    match replaceFirstR p f c with
    | some r => some (r.1 :: rest, r.2)
    | none => (replaceFirstRL p f rest).map (fun r => (c :: r.1, r.2))

end

/-! ## Number formatter (cleanup.py lines 195-261) -/

/-- Word table for 1-9 (`ones` in `number_to_words`). -/
def onesW : List String :=
  ["", "One", "Two", "Three", "Four", "Five", "Six", "Seven", "Eight", "Nine"]

/-- Word table for 10-19 (`teens`). -/
def teensW : List String :=
  ["Ten", "Eleven", "Twelve", "Thirteen", "Fourteen", "Fifteen",
   "Sixteen", "Seventeen", "Eighteen", "Nineteen"]

/-- Word table for the tens (`tens`). -/
def tensW : List String :=
  ["", "", "Twenty", "Thirty", "Forty", "Fifty", "Sixty", "Seventy", "Eighty", "Ninety"]

/-- Cardinal words for a chapter number (`number_to_words`, cleanup.py
lines 195-217); numbers of 100 and above fall back to the decimal string.
Chapter numbers are positive (the configuration spin box has minimum 1),
so the argument is a natural number. -/
def number_to_words (n : Nat) : String :=
  if n < 10 then onesW.getD n ""
  else if n < 20 then teensW.getD (n - 10) ""
  else if n < 100 then
    tensW.getD (n / 10) "" ++ (if n % 10 = 0 then "" else " " ++ onesW.getD (n % 10) "")
  else Nat.repr n

/-- Python string repetition `s * k`. -/
def repStr (s : String) (k : Nat) : String := String.join (List.replicate k s)

/-- The subtractive-pair value table of `number_to_roman`. -/
def romanValues : List (Nat × String) :=
  [(1000, "M"), (900, "CM"), (500, "D"), (400, "CD"),
   (100, "C"), (90, "XC"), (50, "L"), (40, "XL"),
   (10, "X"), (9, "IX"), (5, "V"), (4, "IV"), (1, "I")]

/-- Roman numerals (`number_to_roman`, cleanup.py lines 220-242): greedy
fold over the value table, appending `numeral * (n // value)` and keeping
the remainder. -/
def number_to_roman (n : Nat) : String :=
  (romanValues.foldl (fun st p => (st.1 ++ repStr p.2 (st.2 / p.1), st.2 - p.1 * (st.2 / p.1)))
    ("", n)).1

/-- Python substring containment `needle in hay`. -/
def strContains (hay needle : String) : Bool :=
  hay.data.tails.any (fun t => needle.data.isPrefixOf t)

/-- Chapter-number formatting by style string (`format_chapter_number`,
cleanup.py lines 245-261): dispatch on whether the style string contains
"Words" or "Roman", else decimal. -/
def format_chapter_number (number : Nat) (numbering_style : String) : String :=
  if strContains numbering_style "Words" then number_to_words number
  else if strContains numbering_style "Roman" then number_to_roman number
  else Nat.repr number

/-! ## Heading recognizer (cleanup.py lines 264-289)

`is_existing_chapter_heading` strips the candidate text and tries, with
`re.IGNORECASE`, the three anchored patterns `^prefix\s+\d+`,
`^prefix\s+[IVX]+` and `^prefix\s+[A-Z][a-z]+` (prefix escaped).  The
regex semantics is compiled here over case-folded ASCII text: `re.match`
with IGNORECASE succeeds iff the case-folded stripped text starts with the
case-folded prefix, then one or more whitespace characters, then (first
pattern) a digit, or (second) one of `i`, `v`, `x`, or (third) two ASCII
letters; since the character classes after `\s+` are disjoint from
whitespace, the usual greedy matching of `\s+` needs no backtracking, and
the trailing `+` of each pattern only requires its first repetition for an
anchored, non-full match. -/

/-- Case folding of a string (Python `re.IGNORECASE`, ASCII model). -/
def lowerStr (s : String) : String := ⟨s.data.map Char.toLower⟩

/-- Match a literal character sequence at the start, returning the rest. -/
def dropLit : List Char → List Char → Option (List Char)
  | [], r => some r
  | _ :: _, [] => none
  | p :: ps, c :: cs => if c = p then dropLit ps cs else none

/-- ASCII lower-case letter (what `[A-Z]` and `[a-z]` both match, under
IGNORECASE, on case-folded text). -/
def isLowerAlpha (c : Char) : Bool := 'a' ≤ c && c ≤ 'z'

/-- Continuation of pattern `^prefix\s+\d+` after the prefix. -/
def matchDigitsTail (r : List Char) : Bool :=
  !(r.takeWhile pyIsSpace).isEmpty &&
    (match r.dropWhile pyIsSpace with
     | c :: _ => c.isDigit
     | [] => false)

/-- Continuation of pattern `^prefix\s+[IVX]+` after the prefix. -/
def matchIVXTail (r : List Char) : Bool :=
  !(r.takeWhile pyIsSpace).isEmpty &&
    (match r.dropWhile pyIsSpace with
     | c :: _ => c = 'i' || c = 'v' || c = 'x'
     | [] => false)

/-- Continuation of pattern `^prefix\s+[A-Z][a-z]+` after the prefix. -/
def matchCapWordTail (r : List Char) : Bool :=
  !(r.takeWhile pyIsSpace).isEmpty &&
    (match r.dropWhile pyIsSpace with
     | c1 :: c2 :: _ => isLowerAlpha c1 && isLowerAlpha c2
     | _ => false)

/-- Existing-heading recognizer (`is_existing_chapter_heading`, cleanup.py
lines 264-289). -/
def is_existing_chapter_heading (text initial_chapter_text : String) : Bool :=
  match dropLit (lowerStr initial_chapter_text).data (lowerStr (pyStrip text)).data with
  | none => false
  | some r => matchDigitsTail r || matchIVXTail r || matchCapWordTail r

/-! ## Chapter heading pass (cleanup.py lines 292-391) -/

/-- Heading configuration, modelling the `config` dictionary together with
the defaults used by `config.get` in cleanup.py (lines 331, 365, 375-377). -/
structure Config where
  initial_chapter_text : String := "Chapter"
  numbering_style : String := "Numeric (eg 1, 2, 3...)"
  text_following_number : String := ""
  insert_heading : Bool := false

/-- The placeholder attribute key used to mark the paragraph to rewrite. -/
def phKey : String := "data-chapter-placeholder"

/-- Whether a node is the `body` element (`soup.find('body')`). -/
def isBody : Node → Bool
  | .elem tag _ _ => tag = "body"
  | .text _ => false

/-- Whether a node carries the placeholder attribute with value `true`
(`soup.find(attrs={'data-chapter-placeholder': 'true'})`). -/
def isPh : Node → Bool
  | .elem _ a _ =>
    match getAttr a phKey with
    | some v => v = "true"
    | none => false
  | .text _ => false

/-- First element child of a sibling list (the `for child in body.children`
loop breaking at the first `Tag`), as a decomposition
`(nodes before, the element, nodes after)`. -/
def firstTag : List Node → Option (List Node × Node × List Node)
  | [] => none
  | .text w :: rest => (firstTag rest).map (fun r => (Node.text w :: r.1, r.2.1, r.2.2))
  | .elem t a cs :: rest => some ([], .elem t a cs, rest)

/-- Body of `add_chapter_headings_with_config` once the `body` element is
found (cleanup.py lines 313-339): mark an empty first paragraph with the
placeholder attribute, or, with `insert_as_p` and a first paragraph that
does not look like an existing heading, insert a fresh placeholder
paragraph before it.  Returns the updated body and
`(changes_made, chapter_added)`. -/
def headingBody (cfg : Config) (insert_as_p : Bool) : Node → Node × (Bool × Nat)
  | .elem t a cs =>
    (match firstTag cs with
     | some (before, .elem ct ca ccs, after) =>
       if ct = "p" then
         (if pyStrip (getText (.elem ct ca ccs)) = "" then
           (.elem t a (before ++ .elem ct (setAttr ca phKey "true") ccs :: after), (true, 1))
         else if insert_as_p &&
             !(is_existing_chapter_heading (pyStrip (getText (.elem ct ca ccs)))
               cfg.initial_chapter_text) then
           (.elem t a (before ++ .elem "p" [(phKey, "true")] [] :: .elem ct ca ccs :: after),
             (true, 1))
         else (.elem t a cs, (false, 0)))
       else (.elem t a cs, (false, 0))
     | some (_, .text _, _) => (.elem t a cs, (false, 0))
     | none => (.elem t a cs, (false, 0)))
  | .text s => (.text s, (false, 0))

/-- `add_chapter_headings_with_config` (cleanup.py lines 292-339): find the
`body` element and apply `headingBody` to it; no body means no change.
Returns the updated tree and `(changes_made, chapter_added)`. -/
def add_chapter_headings_with_config (t : Node) (cfg : Config) (insert_as_p : Bool) :
    Node × Bool × Nat :=
  match replaceFirstR isBody (headingBody cfg insert_as_p) t with
  | some r => (r.1, r.2.1, r.2.2)
  | none => (t, false, 0)

/-- The heading string built at cleanup.py lines 374-386:
`' '.join([initial_text, formatted number] + ([text_following] if
text_following else []))`. -/
def heading_text (cfg : Config) (chapter_number : Nat) : String :=
  String.intercalate " "
    ([cfg.initial_chapter_text, format_chapter_number chapter_number cfg.numbering_style] ++
      (if cfg.text_following_number ≠ "" then [cfg.text_following_number] else []))

/-- Rewriting of the found placeholder (cleanup.py lines 370-388):
`placeholder.clear()`, set its string to the heading text, delete the
placeholder attribute. -/
def fillPh (cfg : Config) (chapter_number : Nat) : Node → Node × Unit
  | .elem t a _ => (.elem t (removeAttr a phKey) [.text (heading_text cfg chapter_number)], ())
  | .text s => (.text s, ())

/-- `process_xhtml_content_with_config` (cleanup.py lines 342-391) on the
parsed document tree (parsing and serialisation of the content string are
the external parser's concern): optionally merge spans, optionally run the
heading pass, and if a chapter was added rewrite the found placeholder and
increment the chapter counter. -/
def process_xhtml_content_with_config (t : Node) (chapter_number : Nat) (cfg : Config)
    (should_cleanup should_add_chapters : Bool) : Node × Nat :=
  let t1 := if should_cleanup then (merge_consecutive_spans t).1 else t
  if should_add_chapters then
    let r := add_chapter_headings_with_config t1 cfg cfg.insert_heading
    if r.2.2 ≠ 0 then
      match replaceFirstR isPh (fillPh cfg chapter_number) r.1 with
      | some r2 => (r2.1, chapter_number + 1)
      | none => (r.1, chapter_number)
    else (r.1, chapter_number)
  else (t1, chapter_number)

/-- Number of headings actually produced by one
`process_xhtml_content_with_config` call: the `chapter_added` count of the
heading pass when it runs, else 0. -/
def headings_produced (t : Node) (cfg : Config) (should_cleanup should_add_chapters : Bool) :
    Nat :=
  if should_add_chapters then
    (add_chapter_headings_with_config
      (if should_cleanup then (merge_consecutive_spans t).1 else t) cfg cfg.insert_heading).2.2
  else 0

/-! ## Statement-side definitions for the claims -/

/-- The claim's characterisation of the heading recognizer: the trimmed
text begins, case-insensitively, with the prefix followed by whitespace
and decimal digits, or by whitespace and one or more of the letters
I/V/X, or by whitespace and a capitalized word; under case folding the
capital/lowercase distinction of the third alternative becomes "a letter
followed by at least one more letter". -/
def SpecHeading (text initial_chapter_text : String) : Prop :=
  ∃ w m : List Char,
    w ≠ [] ∧ (∀ c ∈ w, pyIsSpace c = true) ∧ m ≠ [] ∧
    ((∀ c ∈ m, c.isDigit = true) ∨
     (∀ c ∈ m, c = 'i' ∨ c = 'v' ∨ c = 'x') ∨
     ((∀ c ∈ m, isLowerAlpha c = true) ∧ 2 ≤ m.length)) ∧
    ((lowerStr initial_chapter_text).data ++ w ++ m) <+: (lowerStr (pyStrip text)).data

/-- A run of style-identical sibling spans for the merge-correctness claim:
a first span with attributes `a0` and text `t0`, followed for each entry
`(gap, attrs, txt)` of `rs` by the whitespace-only separator text nodes of
`gap` and a further span. -/
def spanRun (a0 : List (String × String)) (t0 : String)
    (rs : List (List String × List (String × String) × String)) : List Node :=
  .elem "span" a0 [.text t0] ::
    (rs.map (fun g => g.1.map Node.text ++ [Node.elem "span" g.2.1 [Node.text g.2.2]])).flatten

/-- Children of the span that a merged run collapses to: the first span's
text, then for each further run member its separators (copied through
`nrm`) and its text. -/
def spanRunMerged (nrm : String → String) (t0 : String)
    (rs : List (List String × List (String × String) × String)) : List Node :=
  .text t0 ::
    (rs.map (fun g => g.1.map (fun w => Node.text (nrm w)) ++ [Node.text g.2.2])).flatten

/-! # Theorems

First, supporting lemmas about the definitions above; the claim theorems
follow at the end of the file. -/

theorem sizeL_append (a b : List Node) : sizeL (a ++ b) = sizeL a + sizeL b := by
  induction a with
  | nil => simp [sizeL]
  | cons c cs ih => simp [sizeL, ih]; omega

theorem size_pos (n : Node) : 1 ≤ size n := by
  cases n <;> simp [size]

theorem sizeL_map_textf (f : String → String) (g : List String) :
    sizeL (g.map (fun w => Node.text (f w))) = g.length := by
  induction g with
  | nil => simp [sizeL]
  | cons w g ih => simp [sizeL, size, ih]; omega

theorem sizeL_map_text (g : List String) : sizeL (g.map Node.text) = g.length := by
  induction g with
  | nil => simp [sizeL]
  | cons w g ih => simp [sizeL, size, ih]; omega

theorem size_le_of_mem {c : Node} {l : List Node} (h : c ∈ l) : size c ≤ sizeL l := by
  induction l with
  | nil => cases h
  | cons d ds ih =>
    rcases List.mem_cons.mp h with h1 | h1
    · subst h1; simp [sizeL]
    · have := ih h1; simp [sizeL]; omega

theorem pass_chase_size (nrm : String → String) :
    ∀ N l, l.length ≤ N →
      (sizeL (mergePass nrm l).1 ≤ sizeL l ∧
       ∀ s a acc gap m,
         sizeL (chase nrm s a acc gap m l).1 ≤ 1 + sizeL acc + gap.length + sizeL l) := by
  intro N
  induction N with
  | zero =>
    intro l hl
    have : l = [] := List.length_eq_zero.mp (Nat.le_zero.mp hl)
    subst this
    constructor
    · simp [mergePass]
    · intro s a acc gap m
      simp [chase, sizeL, size, sizeL_append, sizeL_map_text]
  | succ N ih =>
    intro l hl
    match l with
    | [] =>
      constructor
      · simp [mergePass]
      · intro s a acc gap m
        simp [chase, sizeL, size, sizeL_append, sizeL_map_text]
    | .text w :: rest =>
      have hr : rest.length ≤ N := by simp at hl; omega
      constructor
      · have := (ih rest hr).1
        simp [mergePass, sizeL, size]
        omega
      · intro s a acc gap m
        by_cases hw : wsOnly w
        · have := (ih rest hr).2 s a acc (gap ++ [w]) m
          simp [chase, hw, sizeL, size] at this ⊢
          omega
        · have := (ih rest hr).1
          simp [chase, hw, sizeL, size, sizeL_append, sizeL_map_text]
          omega
    | .elem tag a2 cs2 :: rest =>
      have hr : rest.length ≤ N := by simp at hl; omega
      constructor
      · by_cases ht : tag = "span"
        · subst ht
          match hs : getAttr a2 "style" with
          | some s =>
            have := (ih rest hr).2 s a2 cs2 [] false
            simp [mergePass, hs, sizeL, size] at this ⊢
            omega
          | none =>
            have := (ih rest hr).1
            simp [mergePass, hs, sizeL, size]
            omega
        · have := (ih rest hr).1
          simp [mergePass, ht, sizeL, size]
          omega
      · intro s a acc gap m
        by_cases ht : tag = "span"
        · subst ht
          match hs : getAttr a2 "style" with
          | some s2 =>
            by_cases he : s2 = s
            · subst he
              have := (ih rest hr).2 s2 a (acc ++ gap.map (fun g => Node.text (nrm g)) ++ cs2) [] true
              simp [chase, hs, sizeL, size, sizeL_append, sizeL_map_text, sizeL_map_textf] at this ⊢
              omega
            · have := (ih rest hr).2 s2 a2 cs2 [] false
              simp [chase, hs, he, sizeL, size, sizeL_append, sizeL_map_text] at this ⊢
              omega
          | none =>
            have := (ih rest hr).1
            simp [chase, hs, sizeL, size, sizeL_append, sizeL_map_text]
            omega
        · have := (ih rest hr).1
          simp [chase, ht, sizeL, size, sizeL_append, sizeL_map_text]
          omega

theorem pass_size (nrm : String → String) (l : List Node) :
    sizeL (mergePass nrm l).1 ≤ sizeL l :=
  (pass_chase_size nrm l.length l le_rfl).1

theorem chase_size (nrm : String → String) (s : String) (a : List (String × String))
    (acc : List Node) (gap : List String) (m : Bool) (l : List Node) :
    sizeL (chase nrm s a acc gap m l).1 ≤ 1 + sizeL acc + gap.length + sizeL l :=
  (pass_chase_size nrm l.length l le_rfl).2 s a acc gap m

theorem mergeNodeF_fuel (nrm : String → String) :
    ∀ f1 : Nat, ∀ n : Node, ∀ f2 : Nat, size n ≤ f1 → size n ≤ f2 →
      mergeNodeF nrm f1 n = mergeNodeF nrm f2 n := by
  intro f1
  induction f1 with
  | zero => intro n f2 h1 _; have := size_pos n; omega
  | succ f ih =>
    intro n f2 h1 h2
    match n with
    | .text s =>
      match f2, h2 with
      | 0, h2 => simp [size] at h2
      | g + 1, _ => rfl
    | .elem t a cs =>
      match f2, h2 with
      | 0, h2 => simp [size] at h2
      | g + 1, h2 =>
        have hcs : sizeL cs ≤ f := by simp [size] at h1; omega
        have hcs2 : sizeL cs ≤ g := by simp [size] at h2; omega
        have hmap : ∀ c ∈ (mergePass nrm cs).1,
            mergeNodeF nrm f c = mergeNodeF nrm g c := by
          intro c hc
          have hle : size c ≤ sizeL cs :=
            le_trans (size_le_of_mem hc) (pass_size nrm cs)
          exact ih c g (le_trans hle hcs) (le_trans hle hcs2)
        simp only [mergeNodeF]
        rw [List.map_congr_left hmap]

theorem anyOfMap {α β : Type} (f : α → β) (p : β → Bool) (l : List α) :
    (l.map f).any p = l.any (fun c => p (f c)) := by
  induction l with
  | nil => rfl
  | cons c l ih => simp [List.any, ih]

theorem mergeNode_text (nrm : String → String) (s : String) :
    mergeNode nrm (.text s) = (.text s, false) := rfl

theorem mergeNode_elem (nrm : String → String) (t : String) (a : List (String × String))
    (cs : List Node) :
    mergeNode nrm (.elem t a cs) =
      (.elem t a ((mergePass nrm cs).1.map (fun c => (mergeNode nrm c).1)),
       (mergePass nrm cs).2 || (mergePass nrm cs).1.any (fun c => (mergeNode nrm c).2)) := by
  have h : size (.elem t a cs) = sizeL cs + 1 := by simp [size]; omega
  have hmap : ∀ c ∈ (mergePass nrm cs).1,
      mergeNodeF nrm (sizeL cs) c = mergeNode nrm c := by
    intro c hc
    have hle : size c ≤ sizeL cs :=
      le_trans (size_le_of_mem hc) (pass_size nrm cs)
    exact mergeNodeF_fuel nrm (sizeL cs) c (size c) hle le_rfl
  rw [mergeNode, h]
  simp only [mergeNodeF]
  rw [List.map_congr_left hmap]
  rw [List.map_map, anyOfMap]
  rfl

theorem noRun_ws_append (s : String) (g : List String) (l : List Node)
    (hg : ∀ w ∈ g, wsOnly w = true) :
    noRun s (g.map Node.text ++ l) = noRun s l := by
  induction g with
  | nil => rfl
  | cons w g ih =>
    have hw : wsOnly w = true := hg w (by simp)
    simp only [List.map_cons, List.cons_append, noRun, hw, if_true]
    exact ih (fun w hw2 => hg w (by simp [hw2]))

theorem noMergeList_texts_append (g : List String) (l : List Node) :
    noMergeList (g.map Node.text ++ l) = noMergeList l := by
  induction g with
  | nil => rfl
  | cons w g ih => simp only [List.map_cons, List.cons_append, noMergeList]; exact ih

theorem chase_ws_append (nrm : String → String) (s : String) (a : List (String × String))
    (acc : List Node) (m : Bool) (g : List String) (l : List Node)
    (hg : ∀ w ∈ g, wsOnly w = true) :
    ∀ gap, chase nrm s a acc gap m (g.map Node.text ++ l) = chase nrm s a acc (gap ++ g) m l := by
  induction g with
  | nil => intro gap; simp
  | cons w g ih =>
    intro gap
    have hw : wsOnly w = true := hg w (by simp)
    simp only [List.map_cons, List.cons_append, chase, hw, if_true, List.append_eq]
    rw [ih (fun w hw2 => hg w (by simp [hw2])) (gap ++ [w])]
    simp

theorem pass_chase_noMerge (nrm : String → String) :
    ∀ N l, l.length ≤ N →
      (noMergeList (mergePass nrm l).1 = true ∧
       ∀ s a acc gap m, (∀ w ∈ gap, wsOnly w = true) →
         ∃ acc2 tail, (chase nrm s a acc gap m l).1 = .elem "span" a acc2 :: tail ∧
           noRun s tail = true ∧ noMergeList tail = true) := by
  intro N
  induction N with
  | zero =>
    intro l hl
    have : l = [] := List.length_eq_zero.mp (Nat.le_zero.mp hl)
    subst this
    refine ⟨by simp [mergePass, noMergeList], ?_⟩
    intro s a acc gap m hg
    refine ⟨acc, gap.map Node.text, by simp [chase], ?_, ?_⟩
    · rw [show (gap.map Node.text : List Node) = gap.map Node.text ++ [] by simp,
        noRun_ws_append s gap [] hg]
      rfl
    · rw [show (gap.map Node.text : List Node) = gap.map Node.text ++ [] by simp,
        noMergeList_texts_append]
      rfl
  | succ N ih =>
    intro l hl
    match l with
    | [] =>
      refine ⟨by simp [mergePass, noMergeList], ?_⟩
      intro s a acc gap m hg
      refine ⟨acc, gap.map Node.text, by simp [chase], ?_, ?_⟩
      · rw [show (gap.map Node.text : List Node) = gap.map Node.text ++ [] by simp,
          noRun_ws_append s gap [] hg]
        rfl
      · rw [show (gap.map Node.text : List Node) = gap.map Node.text ++ [] by simp,
          noMergeList_texts_append]
        rfl
    | .text w :: rest =>
      have hr : rest.length ≤ N := by simp at hl; omega
      constructor
      · simp only [mergePass, noMergeList]
        exact (ih rest hr).1
      · intro s a acc gap m hg
        by_cases hw : wsOnly w
        · simp only [chase, hw, if_true]
          exact (ih rest hr).2 s a acc (gap ++ [w]) m
            (by intro x hx; rcases List.mem_append.mp hx with h | h
                · exact hg x h
                · simp at h; subst h; exact hw)
        · simp only [chase, hw, if_false, Bool.false_eq_true]
          refine ⟨acc, gap.map Node.text ++ .text w :: (mergePass nrm rest).1, rfl, ?_, ?_⟩
          · rw [noRun_ws_append s gap _ hg]
            simp [noRun, hw]
          · rw [noMergeList_texts_append]
            simp only [noMergeList]
            exact (ih rest hr).1
    | .elem tag a2 cs2 :: rest =>
      have hr : rest.length ≤ N := by simp at hl; omega
      constructor
      · by_cases ht : tag = "span"
        · subst ht
          match hs : getAttr a2 "style" with
          | some s =>
            simp only [mergePass, hs, if_true, reduceIte]
            obtain ⟨acc2, tail, heq, hnr, hnm⟩ :=
              (ih rest hr).2 s a2 cs2 [] false (by intro x hx; cases hx)
            rw [heq]
            simp [noMergeList, hs, hnr, hnm]
          | none =>
            simp only [mergePass, hs, reduceIte]
            simp only [noMergeList, hs]
            simp
            exact (ih rest hr).1
        · simp only [mergePass, ht, if_false]
          simp only [noMergeList, ht, if_false]
          simp [ht]
          exact (ih rest hr).1
      · intro s a acc gap m hg
        by_cases ht : tag = "span"
        · subst ht
          match hs : getAttr a2 "style" with
          | some s2 =>
            by_cases he : s2 = s
            · subst he
              simp only [chase, hs, reduceIte]
              exact (ih rest hr).2 s2 a (acc ++ gap.map (fun g => Node.text (nrm g)) ++ cs2)
                [] true (by intro x hx; cases hx)
            · simp only [chase, hs, he, reduceIte]
              obtain ⟨acc2, tail, heq, hnr, hnm⟩ :=
                (ih rest hr).2 s2 a2 cs2 [] false (by intro x hx; cases hx)
              rw [heq]
              refine ⟨acc, gap.map Node.text ++ .elem "span" a2 acc2 :: tail, rfl, ?_, ?_⟩
              · rw [noRun_ws_append s gap _ hg]
                simp [noRun, hs, he]
              · rw [noMergeList_texts_append]
                simp [noMergeList, hs, hnr, hnm]
          | none =>
            simp only [chase, hs, reduceIte]
            refine ⟨acc, gap.map Node.text ++ .elem "span" a2 cs2 :: (mergePass nrm rest).1,
              rfl, ?_, ?_⟩
            · rw [noRun_ws_append s gap _ hg]
              simp [noRun, hs]
            · rw [noMergeList_texts_append]
              simp only [noMergeList, hs]
              simp
              exact (ih rest hr).1
        · simp only [chase, ht, if_false]
          refine ⟨acc, gap.map Node.text ++ .elem tag a2 cs2 :: (mergePass nrm rest).1,
            rfl, ?_, ?_⟩
          · rw [noRun_ws_append s gap _ hg]
            simp [noRun, ht]
          · rw [noMergeList_texts_append]
            simp only [noMergeList, ht, if_false]
            simp [ht]
            exact (ih rest hr).1

theorem pass_chase_fix (nrm : String → String) :
    ∀ N l, l.length ≤ N →
      ((noMergeList l = true → mergePass nrm l = (l, false)) ∧
       ∀ s a acc gap m, (∀ w ∈ gap, wsOnly w = true) →
         noRun s l = true → noMergeList l = true →
         chase nrm s a acc gap m l = (.elem "span" a acc :: (gap.map Node.text ++ l), m)) := by
  intro N
  induction N with
  | zero =>
    intro l hl
    have : l = [] := List.length_eq_zero.mp (Nat.le_zero.mp hl)
    subst this
    exact ⟨fun _ => by simp [mergePass], fun s a acc gap m hg _ _ => by simp [chase]⟩
  | succ N ih =>
    intro l hl
    match l with
    | [] =>
      exact ⟨fun _ => by simp [mergePass], fun s a acc gap m hg _ _ => by simp [chase]⟩
    | .text w :: rest =>
      have hr : rest.length ≤ N := by simp at hl; omega
      constructor
      · intro hnm
        simp only [noMergeList] at hnm
        simp only [mergePass, (ih rest hr).1 hnm]
      · intro s a acc gap m hg hnr hnm
        simp only [noMergeList] at hnm
        by_cases hw : wsOnly w
        · simp only [noRun, hw, if_true] at hnr
          simp only [chase, hw, if_true]
          rw [(ih rest hr).2 s a acc (gap ++ [w]) m
            (by intro x hx; rcases List.mem_append.mp hx with h | h
                · exact hg x h
                · simp at h; subst h; exact hw) hnr hnm]
          simp
        · simp only [chase, hw, if_false, Bool.false_eq_true]
          rw [(ih rest hr).1 hnm]
          simp
    | .elem tag a2 cs2 :: rest =>
      have hr : rest.length ≤ N := by simp at hl; omega
      constructor
      · intro hnm
        by_cases ht : tag = "span"
        · subst ht
          match hs : getAttr a2 "style" with
          | some s =>
            simp only [noMergeList, hs, reduceIte, Bool.and_eq_true] at hnm
            simp only [mergePass, hs, reduceIte]
            rw [(ih rest hr).2 s a2 cs2 [] false (by intro x hx; cases hx) hnm.1 hnm.2]
            simp
          | none =>
            simp only [noMergeList, hs, reduceIte, Bool.and_eq_true] at hnm
            simp only [mergePass, hs, reduceIte]
            rw [(ih rest hr).1 (by simpa using hnm)]
        · simp only [noMergeList, ht, if_false] at hnm
          simp only [mergePass, ht, if_false]
          rw [(ih rest hr).1 (by simpa [ht] using hnm)]
      · intro s a acc gap m hg hnr hnm
        by_cases ht : tag = "span"
        · subst ht
          match hs : getAttr a2 "style" with
          | some s2 =>
            simp only [noRun, hs, reduceIte] at hnr
            have he : ¬(s2 = s) := by
              intro he; subst he; simp at hnr
            simp only [noMergeList, hs, reduceIte, Bool.and_eq_true] at hnm
            simp only [chase, hs, he, reduceIte]
            rw [(ih rest hr).2 s2 a2 cs2 [] false (by intro x hx; cases hx) hnm.1 hnm.2]
            simp
          | none =>
            simp only [noMergeList, hs, reduceIte, Bool.and_eq_true] at hnm
            simp only [chase, hs, reduceIte]
            rw [(ih rest hr).1 (by simpa using hnm)]
            simp
        · simp only [noMergeList, ht, if_false] at hnm
          simp only [chase, ht, if_false]
          rw [(ih rest hr).1 (by simpa [ht] using hnm)]
          simp

theorem pass_of_noMergeList (nrm : String → String) (l : List Node)
    (h : noMergeList l = true) : mergePass nrm l = (l, false) :=
  (pass_chase_fix nrm l.length l le_rfl).1 h

theorem pass_noMergeList (nrm : String → String) (l : List Node) :
    noMergeList (mergePass nrm l).1 = true :=
  (pass_chase_noMerge nrm l.length l le_rfl).1

theorem mergeNode_shape (nrm : String → String) (n : Node) :
    (∃ s, n = .text s ∧ (mergeNode nrm n).1 = .text s) ∨
    (∃ t a cs cs2, n = .elem t a cs ∧ (mergeNode nrm n).1 = .elem t a cs2) := by
  match n with
  | .text s => exact Or.inl ⟨s, rfl, rfl⟩
  | .elem t a cs =>
    exact Or.inr ⟨t, a, cs, (mergePass nrm cs).1.map (fun c => (mergeNode nrm c).1), rfl,
      by rw [mergeNode_elem]⟩

theorem noRun_map_mergeNode (nrm : String → String) (s : String) (l : List Node) :
    noRun s (l.map (fun c => (mergeNode nrm c).1)) = noRun s l := by
  induction l with
  | nil => rfl
  | cons c rest ih =>
    rcases mergeNode_shape nrm c with ⟨w, hc, hm⟩ | ⟨t, a, cs, cs2, hc, hm⟩
    · subst hc
      simp only [List.map_cons, hm, noRun]
      by_cases hw : wsOnly w <;> simp [hw, ih]
    · subst hc
      simp only [List.map_cons, hm, noRun]

theorem noMergeList_map_mergeNode (nrm : String → String) (l : List Node) :
    noMergeList (l.map (fun c => (mergeNode nrm c).1)) = noMergeList l := by
  induction l with
  | nil => rfl
  | cons c rest ih =>
    rcases mergeNode_shape nrm c with ⟨w, hc, hm⟩ | ⟨t, a, cs, cs2, hc, hm⟩
    · subst hc
      simp only [List.map_cons, hm, noMergeList, ih]
    · subst hc
      simp only [List.map_cons, hm, noMergeList, ih, noRun_map_mergeNode]

theorem sizeL_map_le (f : Node → Node) (l : List Node)
    (h : ∀ c ∈ l, size (f c) ≤ size c) : sizeL (l.map f) ≤ sizeL l := by
  induction l with
  | nil => simp
  | cons c rest ih =>
    simp only [List.map_cons, sizeL]
    have h1 := h c (by simp)
    have h2 := ih (fun c hc => h c (by simp [hc]))
    omega

theorem mergeNode_size (nrm : String → String) :
    ∀ N n, size n ≤ N → size (mergeNode nrm n).1 ≤ size n := by
  intro N
  induction N with
  | zero => intro n h; have := size_pos n; omega
  | succ N ih =>
    intro n hn
    match n with
    | .text s => simp [mergeNode_text]
    | .elem t a cs =>
      rw [mergeNode_elem]
      simp only [size]
      have h1 : sizeL ((mergePass nrm cs).1.map (fun c => (mergeNode nrm c).1)) ≤
          sizeL (mergePass nrm cs).1 := by
        apply sizeL_map_le
        intro c hc
        apply ih
        have h2 : size c ≤ sizeL (mergePass nrm cs).1 := size_le_of_mem hc
        have h3 := pass_size nrm cs
        simp [size] at hn
        omega
      have h4 := pass_size nrm cs
      simp [size] at hn ⊢
      omega

theorem mergeNode_idem (nrm : String → String) :
    ∀ N n, size n ≤ N → mergeNode nrm (mergeNode nrm n).1 = ((mergeNode nrm n).1, false) := by
  intro N
  induction N with
  | zero => intro n h; have := size_pos n; omega
  | succ N ih =>
    intro n hn
    match n with
    | .text s => simp [mergeNode_text]
    | .elem t a cs =>
      rw [mergeNode_elem]
      simp only
      rw [mergeNode_elem]
      have hnm : noMergeList ((mergePass nrm cs).1.map (fun c => (mergeNode nrm c).1)) = true := by
        rw [noMergeList_map_mergeNode]
        exact pass_noMergeList nrm cs
      rw [pass_of_noMergeList nrm _ hnm]
      simp only
      have hsz : ∀ c ∈ (mergePass nrm cs).1, size c ≤ N := by
        intro c hc
        have h1 : size c ≤ sizeL (mergePass nrm cs).1 := size_le_of_mem hc
        have h2 : sizeL (mergePass nrm cs).1 ≤ sizeL cs := pass_size nrm cs
        simp [size] at hn
        omega
      have hmap : ∀ x ∈ (mergePass nrm cs).1.map (fun c => (mergeNode nrm c).1),
          mergeNode nrm x = (x, false) := by
        intro x hx
        rcases List.mem_map.mp hx with ⟨c, hc, hcx⟩
        subst hcx
        exact ih c (hsz c hc)
      simp only [Prod.mk.injEq]
      refine ⟨?_, ?_⟩
      · congr 1
        rw [List.map_congr_left (fun x hx => by rw [hmap x hx])]
        exact List.map_id _
      · simp only [Bool.false_or]
        rw [List.any_eq_false]
        intro x hx
        rw [hmap x hx]
        simp

theorem pass_texts (nrm : String → String) (l : List Node)
    (h : ∀ c ∈ l, ∃ w, c = Node.text w) : mergePass nrm l = (l, false) := by
  induction l with
  | nil => rfl
  | cons c rest ih =>
    obtain ⟨w, hw⟩ := h c (by simp)
    subst hw
    simp only [mergePass]
    rw [ih (fun c hc => h c (by simp [hc]))]

theorem map_mergeNode_texts (nrm : String → String) (l : List Node)
    (h : ∀ c ∈ l, ∃ w, c = Node.text w) :
    l.map (fun c => (mergeNode nrm c).1) = l ∧
    l.any (fun c => (mergeNode nrm c).2) = false := by
  induction l with
  | nil => simp
  | cons c rest ih =>
    obtain ⟨w, hw⟩ := h c (by simp)
    subst hw
    obtain ⟨ih1, ih2⟩ := ih (fun c hc => h c (by simp [hc]))
    simp only [List.map_cons, List.any_cons, mergeNode_text, ih1, ih2]
    simp

theorem mergeNode_texts (nrm : String → String) (t : String) (a : List (String × String))
    (l : List Node) (h : ∀ c ∈ l, ∃ w, c = Node.text w) :
    mergeNode nrm (.elem t a l) = (.elem t a l, false) := by
  rw [mergeNode_elem, pass_texts nrm l h]
  simp only
  rw [(map_mergeNode_texts nrm l h).1, (map_mergeNode_texts nrm l h).2]
  simp

theorem spanCountL_texts (l : List Node) (h : ∀ c ∈ l, ∃ w, c = Node.text w) :
    spanCountL l = 0 := by
  induction l with
  | nil => rfl
  | cons c rest ih =>
    obtain ⟨w, hw⟩ := h c (by simp)
    subst hw
    simp only [spanCountL, spanCountN]
    rw [ih (fun c hc => h c (by simp [hc]))]

theorem spanRunMerged_texts (nrm : String → String) (t0 : String)
    (rs : List (List String × List (String × String) × String)) :
    ∀ c ∈ spanRunMerged nrm t0 rs, ∃ w, c = Node.text w := by
  intro c hc
  simp only [spanRunMerged, List.mem_cons] at hc
  rcases hc with hc | hc
  · exact ⟨t0, hc⟩
  · rw [List.mem_flatten] at hc
    obtain ⟨sub, hsub, hcsub⟩ := hc
    rw [List.mem_map] at hsub
    obtain ⟨g, _, hg⟩ := hsub
    subst hg
    rcases List.mem_append.mp hcsub with h | h
    · rcases List.mem_map.mp h with ⟨w, _, hw⟩
      exact ⟨nrm w, hw.symm⟩
    · simp at h
      exact ⟨g.2.2, h⟩

theorem getTextL_append (a b : List Node) : getTextL (a ++ b) = getTextL a ++ getTextL b := by
  induction a with
  | nil => simp [getTextL]
  | cons c cs ih => simp [getTextL, ih, String.append_assoc]

theorem strFoldl_append (l : List String) :
    ∀ init : String, l.foldl (fun r s => r ++ s) init = init ++ l.foldl (fun r s => r ++ s) "" := by
  induction l with
  | nil => intro init; simp
  | cons b l ih =>
    intro init
    simp only [List.foldl_cons]
    rw [ih (init ++ b), ih ("" ++ b)]
    simp [String.append_assoc]

theorem strJoin_cons (a : String) (l : List String) :
    String.join (a :: l) = a ++ String.join l := by
  simp only [String.join, List.foldl_cons]
  rw [strFoldl_append l ("" ++ a)]
  simp

theorem getTextL_map_textf (f : String → String) (g : List String) :
    getTextL (g.map (fun w => Node.text (f w))) = String.join (g.map f) := by
  induction g with
  | nil => rfl
  | cons w g ih => simp only [List.map_cons, getTextL, getText, strJoin_cons, ih]

theorem getTextL_spanRunMerged (nrm : String → String) (t0 : String)
    (rs : List (List String × List (String × String) × String)) :
    getTextL (spanRunMerged nrm t0 rs) =
      t0 ++ String.join (rs.map (fun g => String.join (g.1.map nrm) ++ g.2.2)) := by
  simp only [spanRunMerged, getTextL, getText]
  congr 1
  induction rs with
  | nil => rfl
  | cons g rs ih =>
    simp only [List.map_cons, List.flatten_cons, strJoin_cons]
    rw [getTextL_append, getTextL_append, getTextL_map_textf]
    simp only [getTextL, getText] at ih ⊢
    rw [ih]
    simp [String.append_assoc]

theorem chase_spanRun (nrm : String → String) (s : String)
    (rs : List (List String × List (String × String) × String))
    (hrs : ∀ g ∈ rs, (∀ w ∈ g.1, wsOnly w = true) ∧ getAttr g.2.1 "style" = some s) :
    ∀ a acc m,
      chase nrm s a acc [] m
        ((rs.map (fun g => g.1.map Node.text ++
          [Node.elem "span" g.2.1 [Node.text g.2.2]])).flatten) =
      (.elem "span" a (acc ++
        (rs.map (fun g => g.1.map (fun w => Node.text (nrm w)) ++ [Node.text g.2.2])).flatten) ::
        [], m || !rs.isEmpty) := by
  induction rs with
  | nil => intro a acc m; simp [chase]
  | cons g rs ih =>
    intro a acc m
    obtain ⟨hg, hga⟩ := hrs g (by simp)
    simp only [List.map_cons, List.flatten_cons, List.append_assoc]
    rw [show (g.1.map Node.text ++ ([Node.elem "span" g.2.1 [Node.text g.2.2]] ++
        (rs.map (fun g => g.1.map Node.text ++
          [Node.elem "span" g.2.1 [Node.text g.2.2]])).flatten)) =
      g.1.map Node.text ++ (Node.elem "span" g.2.1 [Node.text g.2.2] ::
        (rs.map (fun g => g.1.map Node.text ++
          [Node.elem "span" g.2.1 [Node.text g.2.2]])).flatten) by simp]
    rw [chase_ws_append nrm s a acc m g.1 _ hg []]
    simp only [List.nil_append, chase, hga, reduceIte]
    rw [ih (fun g hg2 => hrs g (by simp [hg2])) a
      (acc ++ g.1.map (fun w => Node.text (nrm w)) ++ [Node.text g.2.2]) true]
    simp

/-- C1: for every run of N style-identical adjacent span elements (N ≥ 1,
built by `spanRun`: a first span with style `s` and text `t0`, then for
each entry of `rs` whitespace-only separator text nodes and a further span
with the same verbatim style value), `merge_consecutive_spans` leaves
exactly one span of the run, and its extracted text is the concatenation of
the original spans' texts in original order interleaved with the
intervening whitespace separators normalised by `normWS` (each newline and
carriage-return replaced by a space, nothing else altered); a change is
reported exactly when N ≥ 2. -/
theorem C1_run_merge (bt : String) (ba a0 : List (String × String)) (s t0 : String)
    (rs : List (List String × List (String × String) × String))
    (h0 : getAttr a0 "style" = some s)
    (hrs : ∀ g ∈ rs, (∀ w ∈ g.1, wsOnly w = true) ∧ getAttr g.2.1 "style" = some s) :
    merge_consecutive_spans (.elem bt ba (spanRun a0 t0 rs)) =
      (.elem bt ba [.elem "span" a0 (spanRunMerged normWS t0 rs)], !rs.isEmpty) ∧
    spanCountL [(.elem "span" a0 (spanRunMerged normWS t0 rs) : Node)] = 1 ∧
    getText (.elem "span" a0 (spanRunMerged normWS t0 rs)) =
      t0 ++ String.join (rs.map (fun g => String.join (g.1.map normWS) ++ g.2.2)) := by
  refine ⟨?_, ?_, ?_⟩
  · rw [merge_consecutive_spans, mergeNode_elem]
    simp only [spanRun, mergePass, h0, reduceIte]
    rw [chase_spanRun normWS s rs hrs a0 [Node.text t0] false]
    have hkids : [Node.text t0] ++
        (rs.map (fun g => g.1.map (fun w => Node.text (normWS w)) ++ [Node.text g.2.2])).flatten =
        spanRunMerged normWS t0 rs := by
      simp [spanRunMerged]
    rw [hkids]
    simp only [List.map_cons, List.map_nil, List.any_cons, List.any_nil,
      mergeNode_texts normWS "span" a0 (spanRunMerged normWS t0 rs)
        (spanRunMerged_texts normWS t0 rs)]
    simp
  · have h := spanCountL_texts _ (spanRunMerged_texts normWS t0 rs)
    simp only [spanRunMerged, spanCountL, spanCountN, reduceIte] at h ⊢
    omega
  · simp only [getText]
    exact getTextL_spanRunMerged normWS t0 rs

/-- Witness for C1 at a concrete run of three spans with style "s1",
separated by a newline text node and by nothing. -/
theorem C1_run_merge_witness :
    (getAttr [("style", "s1")] "style" = some "s1" ∧
     ∀ g ∈ [(["\n"], [("style", "s1")], "b"), (([] : List String), [("style", "s1")], "c")],
       (∀ w ∈ g.1, wsOnly w = true) ∧ getAttr g.2.1 "style" = some "s1") ∧
    (merge_consecutive_spans (.elem "p" [] (spanRun [("style", "s1")] "a"
        [(["\n"], [("style", "s1")], "b"), ([], [("style", "s1")], "c")])) =
      (.elem "p" [] [.elem "span" [("style", "s1")] (spanRunMerged normWS "a"
        [(["\n"], [("style", "s1")], "b"), ([], [("style", "s1")], "c")])],
       !([(["\n"], [("style", "s1")], "b"),
          (([] : List String), [("style", "s1")], "c")].isEmpty)) ∧
     spanCountL [(.elem "span" [("style", "s1")] (spanRunMerged normWS "a"
        [(["\n"], [("style", "s1")], "b"), ([], [("style", "s1")], "c")]) : Node)] = 1 ∧
     getText (.elem "span" [("style", "s1")] (spanRunMerged normWS "a"
        [(["\n"], [("style", "s1")], "b"), ([], [("style", "s1")], "c")])) =
      "a" ++ String.join ([(["\n"], [("style", "s1")], "b"),
        (([] : List String), [("style", "s1")], "c")].map
          (fun g => String.join (g.1.map normWS) ++ g.2.2))) :=
  ⟨⟨by decide, by decide⟩,
   C1_run_merge "p" [] [("style", "s1")] "s1" "a"
     [(["\n"], [("style", "s1")], "b"), ([], [("style", "s1")], "c")]
     (by decide) (by decide)⟩

/-- C2: `merge_consecutive_spans` is idempotent: running it a second time
on the result of the first run reports no change and leaves the tree
identical. -/
theorem C2_merge_idempotent (n : Node) :
    merge_consecutive_spans (merge_consecutive_spans n).1 =
      ((merge_consecutive_spans n).1, false) :=
  mergeNode_idem normWS (size n) n le_rfl

/-- C7: the number formatter renders 5 numerically as "5", 25 in cardinal
words as "Twenty Five", 1994 in Roman numerals as "MCMXCIV", and for every
n ≥ 100 the cardinal-words style falls back to the decimal string of n
(a documented limitation, not an error). -/
theorem C7_number_formatter :
    format_chapter_number 5 "Numeric (eg 1, 2, 3...)" = "5" ∧
    format_chapter_number 25 "Words (eg One, Two, Three...)" = "Twenty Five" ∧
    format_chapter_number 1994 "Roman Numerals (eg I, II, III...)" = "MCMXCIV" ∧
    ∀ n : Nat, 100 ≤ n →
      format_chapter_number n "Words (eg One, Two, Three...)" = Nat.repr n := by
  refine ⟨by decide, by decide, by decide, ?_⟩
  intro n hn
  rw [format_chapter_number,
    if_pos (show strContains "Words (eg One, Two, Three...)" "Words" = true by decide)]
  rw [number_to_words, if_neg (by omega), if_neg (by omega), if_neg (by omega)]

/-- Witness for C7's universally quantified fallback conjunct at n = 150. -/
theorem C7_number_formatter_witness :
    100 ≤ 150 ∧ format_chapter_number 150 "Words (eg One, Two, Three...)" = Nat.repr 150 :=
  ⟨by omega, C7_number_formatter.2.2.2 150 (by omega)⟩

theorem dropLit_iff (p : List Char) :
    ∀ t r, dropLit p t = some r ↔ t = p ++ r := by
  induction p with
  | nil =>
    intro t r
    constructor
    · intro h
      simp only [dropLit, Option.some.injEq] at h
      simp [h]
    · intro h
      simp only [List.nil_append] at h
      simp [dropLit, h]
  | cons c cs ih =>
    intro t r
    match t with
    | [] =>
      constructor
      · intro h; simp [dropLit] at h
      · intro h; simp at h
    | d :: ds =>
      constructor
      · intro h
        simp only [dropLit] at h
        by_cases hd : d = c
        · rw [if_pos hd] at h
          subst hd
          rw [(ih ds r).mp h]
          simp
        · rw [if_neg hd] at h
          exact absurd h (by simp)
      · intro h
        simp only [List.cons_append, List.cons.injEq] at h
        obtain ⟨h1, h2⟩ := h
        subst h1
        simp only [dropLit, if_pos rfl]
        exact (ih ds r).mpr h2

theorem prefix_cancel (p a b : List Char) : (p ++ a <+: p ++ b) ↔ (a <+: b) := by
  constructor
  · rintro ⟨t, ht⟩
    refine ⟨t, ?_⟩
    rw [List.append_assoc] at ht
    exact List.append_cancel_left ht
  · rintro ⟨t, ht⟩
    exact ⟨t, by rw [List.append_assoc, ht]⟩

theorem pyIsSpace_cases {c : Char} (h : pyIsSpace c = true) :
    c = ' ' ∨ c = '\t' ∨ c = '\n' ∨ c = '\r' ∨ c = '\x0b' ∨ c = '\x0c' := by
  simp only [pyIsSpace, Bool.or_eq_true, decide_eq_true_eq] at h
  tauto

theorem digit_notSpace {c : Char} (h : c.isDigit = true) : pyIsSpace c = false := by
  cases hps : pyIsSpace c
  · rfl
  · exfalso
    rcases pyIsSpace_cases hps with rfl | rfl | rfl | rfl | rfl | rfl <;>
      exact absurd h (by decide)

theorem ivx_notSpace {c : Char} (h : c = 'i' ∨ c = 'v' ∨ c = 'x') : pyIsSpace c = false := by
  rcases h with rfl | rfl | rfl <;> decide

theorem lowerAlpha_notSpace {c : Char} (h : isLowerAlpha c = true) : pyIsSpace c = false := by
  cases hps : pyIsSpace c
  · rfl
  · exfalso
    rcases pyIsSpace_cases hps with rfl | rfl | rfl | rfl | rfl | rfl <;>
      exact absurd h (by decide)

theorem span_eq (w rest : List Char) (hw : ∀ x ∈ w, pyIsSpace x = true)
    (hr : ∀ c, rest.head? = some c → pyIsSpace c = false) :
    (w ++ rest).takeWhile pyIsSpace = w ∧ (w ++ rest).dropWhile pyIsSpace = rest := by
  induction w with
  | nil =>
    simp only [List.nil_append]
    match rest with
    | [] => simp
    | c :: rest' =>
      have := hr c rfl
      simp [List.takeWhile, List.dropWhile, this]
  | cons x w ih =>
    have hx : pyIsSpace x = true := hw x (by simp)
    obtain ⟨ih1, ih2⟩ := ih (fun x hx2 => hw x (by simp [hx2]))
    simp [List.takeWhile, List.dropWhile, hx, ih1, ih2]

theorem matchDigitsTail_iff (r : List Char) :
    matchDigitsTail r = true ↔
      ∃ w m : List Char, w ≠ [] ∧ (∀ c ∈ w, pyIsSpace c = true) ∧ m ≠ [] ∧
        (∀ c ∈ m, c.isDigit = true) ∧ w ++ m <+: r := by
  constructor
  · intro h
    simp only [matchDigitsTail, Bool.and_eq_true, Bool.not_eq_true'] at h
    obtain ⟨h1, h2⟩ := h
    match hd : r.dropWhile pyIsSpace with
    | [] => rw [hd] at h2; exact absurd h2 (by simp)
    | c :: rest =>
      rw [hd] at h2
      refine ⟨r.takeWhile pyIsSpace, [c], ?_, ?_, by simp, by simpa using h2, ?_⟩
      · intro he; rw [he] at h1; exact absurd h1 (by simp)
      · intro x hx; exact List.mem_takeWhile_imp hx
      · refine ⟨rest, ?_⟩
        have h3 := List.takeWhile_append_dropWhile pyIsSpace r
        rw [hd] at h3
        simpa [List.append_assoc] using h3
  · rintro ⟨w, m, hw, hws, hm, hdig, t, ht⟩
    match m, hm with
    | c :: m', _ =>
      have hc : c.isDigit = true := hdig c (by simp)
      have hns : pyIsSpace c = false := digit_notSpace hc
      rw [← ht, List.append_assoc]
      obtain ⟨e1, e2⟩ := span_eq w (c :: (m' ++ t)) hws
        (by intro x hx; simp at hx; subst hx; exact hns)
      simp only [matchDigitsTail, List.cons_append, e1, e2, List.append_assoc] at *
      simp [hc, hw]

theorem matchIVXTail_iff (r : List Char) :
    matchIVXTail r = true ↔
      ∃ w m : List Char, w ≠ [] ∧ (∀ c ∈ w, pyIsSpace c = true) ∧ m ≠ [] ∧
        (∀ c ∈ m, c = 'i' ∨ c = 'v' ∨ c = 'x') ∧ w ++ m <+: r := by
  constructor
  · intro h
    simp only [matchIVXTail, Bool.and_eq_true, Bool.not_eq_true'] at h
    obtain ⟨h1, h2⟩ := h
    match hd : r.dropWhile pyIsSpace with
    | [] => rw [hd] at h2; exact absurd h2 (by simp)
    | c :: rest =>
      rw [hd] at h2
      simp only [Bool.or_eq_true, decide_eq_true_eq] at h2
      refine ⟨r.takeWhile pyIsSpace, [c], ?_, ?_, by simp, ?_, ?_⟩
      · intro he; rw [he] at h1; exact absurd h1 (by simp)
      · intro x hx; exact List.mem_takeWhile_imp hx
      · intro x hx; simp at hx; subst hx; tauto
      · refine ⟨rest, ?_⟩
        have h3 := List.takeWhile_append_dropWhile pyIsSpace r
        rw [hd] at h3
        simpa [List.append_assoc] using h3
  · rintro ⟨w, m, hw, hws, hm, hivx, t, ht⟩
    match m, hm with
    | c :: m', _ =>
      have hc : c = 'i' ∨ c = 'v' ∨ c = 'x' := hivx c (by simp)
      have hns : pyIsSpace c = false := ivx_notSpace hc
      rw [← ht, List.append_assoc]
      obtain ⟨e1, e2⟩ := span_eq w (c :: (m' ++ t)) hws
        (by intro x hx; simp at hx; subst hx; exact hns)
      simp only [matchIVXTail, List.cons_append, e1, e2, List.append_assoc] at *
      rcases hc with rfl | rfl | rfl <;> simp [hw]

theorem matchCapWordTail_iff (r : List Char) :
    matchCapWordTail r = true ↔
      ∃ w m : List Char, w ≠ [] ∧ (∀ c ∈ w, pyIsSpace c = true) ∧ m ≠ [] ∧
        ((∀ c ∈ m, isLowerAlpha c = true) ∧ 2 ≤ m.length) ∧ w ++ m <+: r := by
  constructor
  · intro h
    simp only [matchCapWordTail, Bool.and_eq_true, Bool.not_eq_true'] at h
    obtain ⟨h1, h2⟩ := h
    match hd : r.dropWhile pyIsSpace with
    | [] => rw [hd] at h2; exact absurd h2 (by simp)
    | [c] => rw [hd] at h2; exact absurd h2 (by simp)
    | c1 :: c2 :: rest =>
      rw [hd] at h2
      simp only [Bool.and_eq_true] at h2
      refine ⟨r.takeWhile pyIsSpace, [c1, c2], ?_, ?_, by simp, ?_, ?_⟩
      · intro he; rw [he] at h1; exact absurd h1 (by simp)
      · intro x hx; exact List.mem_takeWhile_imp hx
      · refine ⟨?_, by simp⟩
        intro x hx
        simp at hx
        rcases hx with rfl | rfl
        · exact h2.1
        · exact h2.2
      · refine ⟨rest, ?_⟩
        have h3 := List.takeWhile_append_dropWhile pyIsSpace r
        rw [hd] at h3
        simpa [List.append_assoc] using h3
  · rintro ⟨w, m, hw, hws, hm, ⟨hlet, hlen⟩, t, ht⟩
    match m, hm, hlen with
    | c1 :: c2 :: m', _, _ =>
      have hc1 : isLowerAlpha c1 = true := hlet c1 (by simp)
      have hc2 : isLowerAlpha c2 = true := hlet c2 (by simp)
      have hns : pyIsSpace c1 = false := lowerAlpha_notSpace hc1
      rw [← ht, List.append_assoc]
      obtain ⟨e1, e2⟩ := span_eq w (c1 :: c2 :: (m' ++ t)) hws
        (by intro x hx; simp at hx; subst hx; exact hns)
      simp only [matchCapWordTail, List.cons_append, e1, e2, List.append_assoc] at *
      simp [hc1, hc2, hw]

/-- C6: `is_existing_chapter_heading text pre` returns true if and only if
the trimmed text begins, case-insensitively, with the prefix followed by
whitespace and decimal digits, or by whitespace and one or more of the
letters I/V/X, or by whitespace and a capitalized word (under `IGNORECASE`,
a letter followed by at least one more letter), as characterised by
`SpecHeading`. -/
theorem C6_recognizer (text initial_chapter_text : String) :
    is_existing_chapter_heading text initial_chapter_text = true ↔
      SpecHeading text initial_chapter_text := by
  rw [is_existing_chapter_heading]
  rcases hdl : dropLit (lowerStr initial_chapter_text).data (lowerStr (pyStrip text)).data
    with _ | r
  · simp only
    constructor
    · intro h; exact absurd h (by simp)
    · rintro ⟨w, m, hw, hws, hm, hpat, tail, htail⟩
      have h2 : dropLit (lowerStr initial_chapter_text).data (lowerStr (pyStrip text)).data =
          some (w ++ (m ++ tail)) := by
        rw [dropLit_iff]
        rw [← htail]
        simp [List.append_assoc]
      rw [hdl] at h2
      exact absurd h2 (by simp)
  · have hT : (lowerStr (pyStrip text)).data = (lowerStr initial_chapter_text).data ++ r :=
      (dropLit_iff _ _ r).mp hdl
    simp only [Bool.or_eq_true, matchDigitsTail_iff, matchIVXTail_iff, matchCapWordTail_iff]
    rw [SpecHeading, hT]
    constructor
    · intro h
      rcases h with (h | h) | h
      · obtain ⟨w, m, h1, h2, h3, h4, h5⟩ := h
        exact ⟨w, m, h1, h2, h3, Or.inl h4,
          by rw [List.append_assoc]; exact (prefix_cancel _ _ r).mpr h5⟩
      · obtain ⟨w, m, h1, h2, h3, h4, h5⟩ := h
        exact ⟨w, m, h1, h2, h3, Or.inr (Or.inl h4),
          by rw [List.append_assoc]; exact (prefix_cancel _ _ r).mpr h5⟩
      · obtain ⟨w, m, h1, h2, h3, h4, h5⟩ := h
        exact ⟨w, m, h1, h2, h3, Or.inr (Or.inr h4),
          by rw [List.append_assoc]; exact (prefix_cancel _ _ r).mpr h5⟩
    · rintro ⟨w, m, h1, h2, h3, hpat, h5⟩
      have h5r : w ++ m <+: r := by
        rw [List.append_assoc] at h5
        exact (prefix_cancel _ _ r).mp h5
      rcases hpat with h4 | h4 | h4
      · exact Or.inl (Or.inl ⟨w, m, h1, h2, h3, h4, h5r⟩)
      · exact Or.inl (Or.inr ⟨w, m, h1, h2, h3, h4, h5r⟩)
      · exact Or.inr ⟨w, m, h1, h2, h3, h4, h5r⟩

theorem getAttr_style_single (s : String) : getAttr [("style", s)] "style" = some s := rfl

theorem getAttr_nil (k : String) : getAttr [] k = none := rfl

theorem mergeNode_flat (nrm : String → String) (tag : String) (attrs : List (String × String))
    (cs : List Node) (hnm : noMergeList cs = true)
    (hflat : ∀ c ∈ cs, (∃ w, c = .text w) ∨
      ∃ t a l, c = .elem t a l ∧ ∀ d ∈ l, ∃ w, d = .text w) :
    mergeNode nrm (.elem tag attrs cs) = (.elem tag attrs cs, false) := by
  rw [mergeNode_elem, pass_of_noMergeList nrm cs hnm]
  simp only
  have hid : ∀ c ∈ cs, mergeNode nrm c = (c, false) := by
    intro c hc
    rcases hflat c hc with ⟨w, hw⟩ | ⟨t, a, l, hl, htext⟩
    · subst hw; exact mergeNode_text nrm w
    · subst hl; exact mergeNode_texts nrm t a l htext
  simp only [Prod.mk.injEq]
  refine ⟨?_, ?_⟩
  · congr 1
    rw [List.map_congr_left (fun x hx => by rw [hid x hx])]
    exact List.map_id _
  · simp only [Bool.false_or]
    rw [List.any_eq_false]
    intro x hx
    rw [hid x hx]
    simp

/-- C8: `merge_consecutive_spans` never merges (tree and changed flag
unchanged, span count unchanged) when: (a) two adjacent spans carry
different style strings; (b) two same-style spans are separated by a
non-whitespace text node (which also makes them two non-adjacent same-style
groups); (c) a span lacks a style attribute, whether as start or as
continuation of a run; (d) two same-style singleton groups are separated by
a non-span element. -/
theorem C8_no_merge :
    (∀ s1 s2 x y : String, s1 ≠ s2 →
      merge_consecutive_spans (.elem "p" []
          [.elem "span" [("style", s1)] [.text x], .elem "span" [("style", s2)] [.text y]]) =
        (.elem "p" [] [.elem "span" [("style", s1)] [.text x],
          .elem "span" [("style", s2)] [.text y]], false) ∧
      spanCountN ((merge_consecutive_spans (.elem "p" []
          [.elem "span" [("style", s1)] [.text x],
           .elem "span" [("style", s2)] [.text y]])).1) =
        spanCountN (.elem "p" [] [.elem "span" [("style", s1)] [.text x],
          .elem "span" [("style", s2)] [.text y]])) ∧
    (∀ s w x y : String, wsOnly w = false →
      merge_consecutive_spans (.elem "p" []
          [.elem "span" [("style", s)] [.text x], .text w,
           .elem "span" [("style", s)] [.text y]]) =
        (.elem "p" [] [.elem "span" [("style", s)] [.text x], .text w,
          .elem "span" [("style", s)] [.text y]], false) ∧
      spanCountN ((merge_consecutive_spans (.elem "p" []
          [.elem "span" [("style", s)] [.text x], .text w,
           .elem "span" [("style", s)] [.text y]])).1) =
        spanCountN (.elem "p" [] [.elem "span" [("style", s)] [.text x], .text w,
          .elem "span" [("style", s)] [.text y]])) ∧
    (∀ s x y z : String,
      merge_consecutive_spans (.elem "p" []
          [.elem "span" [] [.text x], .elem "span" [("style", s)] [.text y],
           .elem "span" [] [.text z]]) =
        (.elem "p" [] [.elem "span" [] [.text x], .elem "span" [("style", s)] [.text y],
          .elem "span" [] [.text z]], false) ∧
      spanCountN ((merge_consecutive_spans (.elem "p" []
          [.elem "span" [] [.text x], .elem "span" [("style", s)] [.text y],
           .elem "span" [] [.text z]])).1) =
        spanCountN (.elem "p" [] [.elem "span" [] [.text x],
          .elem "span" [("style", s)] [.text y], .elem "span" [] [.text z]])) ∧
    (∀ s x y : String,
      merge_consecutive_spans (.elem "p" []
          [.elem "span" [("style", s)] [.text x], .elem "i" [] [],
           .elem "span" [("style", s)] [.text y]]) =
        (.elem "p" [] [.elem "span" [("style", s)] [.text x], .elem "i" [] [],
          .elem "span" [("style", s)] [.text y]], false) ∧
      spanCountN ((merge_consecutive_spans (.elem "p" []
          [.elem "span" [("style", s)] [.text x], .elem "i" [] [],
           .elem "span" [("style", s)] [.text y]])).1) =
        spanCountN (.elem "p" [] [.elem "span" [("style", s)] [.text x], .elem "i" [] [],
          .elem "span" [("style", s)] [.text y]])) := by
  refine ⟨?_, ?_, ?_, ?_⟩
  · intro s1 s2 x y hne
    have h : merge_consecutive_spans (.elem "p" []
        [.elem "span" [("style", s1)] [.text x], .elem "span" [("style", s2)] [.text y]]) =
        (.elem "p" [] [.elem "span" [("style", s1)] [.text x],
          .elem "span" [("style", s2)] [.text y]], false) := by
      apply mergeNode_flat
      · simp only [noMergeList, noRun, getAttr_style_single, reduceIte, Bool.and_eq_true]
        refine ⟨?_, ?_, trivial⟩ <;> simp [Ne.symm hne]
      · intro c hc
        simp only [List.mem_cons, List.not_mem_nil, or_false] at hc
        rcases hc with rfl | rfl
        · exact Or.inr ⟨_, _, _, rfl, by intro d hd; simp at hd; exact ⟨x, hd⟩⟩
        · exact Or.inr ⟨_, _, _, rfl, by intro d hd; simp at hd; exact ⟨y, hd⟩⟩
    exact ⟨h, by rw [h]⟩
  · intro s w x y hw
    have h : merge_consecutive_spans (.elem "p" []
        [.elem "span" [("style", s)] [.text x], .text w,
         .elem "span" [("style", s)] [.text y]]) =
        (.elem "p" [] [.elem "span" [("style", s)] [.text x], .text w,
          .elem "span" [("style", s)] [.text y]], false) := by
      apply mergeNode_flat
      · simp only [noMergeList, noRun, getAttr_style_single, reduceIte, hw, Bool.and_eq_true]
        simp
      · intro c hc
        simp only [List.mem_cons, List.not_mem_nil, or_false] at hc
        rcases hc with rfl | rfl | rfl
        · exact Or.inr ⟨_, _, _, rfl, by intro d hd; simp at hd; exact ⟨x, hd⟩⟩
        · exact Or.inl ⟨w, rfl⟩
        · exact Or.inr ⟨_, _, _, rfl, by intro d hd; simp at hd; exact ⟨y, hd⟩⟩
    exact ⟨h, by rw [h]⟩
  · intro s x y z
    have h : merge_consecutive_spans (.elem "p" []
        [.elem "span" [] [.text x], .elem "span" [("style", s)] [.text y],
         .elem "span" [] [.text z]]) =
        (.elem "p" [] [.elem "span" [] [.text x], .elem "span" [("style", s)] [.text y],
          .elem "span" [] [.text z]], false) := by
      apply mergeNode_flat
      · simp [noMergeList, noRun, getAttr_style_single, getAttr_nil]
      · intro c hc
        simp only [List.mem_cons, List.not_mem_nil, or_false] at hc
        rcases hc with rfl | rfl | rfl
        · exact Or.inr ⟨_, _, _, rfl, by intro d hd; simp at hd; exact ⟨x, hd⟩⟩
        · exact Or.inr ⟨_, _, _, rfl, by intro d hd; simp at hd; exact ⟨y, hd⟩⟩
        · exact Or.inr ⟨_, _, _, rfl, by intro d hd; simp at hd; exact ⟨z, hd⟩⟩
    exact ⟨h, by rw [h]⟩
  · intro s x y
    have h : merge_consecutive_spans (.elem "p" []
        [.elem "span" [("style", s)] [.text x], .elem "i" [] [],
         .elem "span" [("style", s)] [.text y]]) =
        (.elem "p" [] [.elem "span" [("style", s)] [.text x], .elem "i" [] [],
          .elem "span" [("style", s)] [.text y]], false) := by
      apply mergeNode_flat
      · simp [noMergeList, noRun, getAttr_style_single]
      · intro c hc
        simp only [List.mem_cons, List.not_mem_nil, or_false] at hc
        rcases hc with rfl | rfl | rfl
        · exact Or.inr ⟨_, _, _, rfl, by intro d hd; simp at hd; exact ⟨x, hd⟩⟩
        · exact Or.inr ⟨_, _, _, rfl, by intro d hd; simp at hd⟩
        · exact Or.inr ⟨_, _, _, rfl, by intro d hd; simp at hd; exact ⟨y, hd⟩⟩
    exact ⟨h, by rw [h]⟩

/-- Witness for C8 at concrete styles and texts. -/
theorem C8_no_merge_witness :
    ("s1" ≠ "s2" ∧
      merge_consecutive_spans (.elem "p" []
          [.elem "span" [("style", "s1")] [.text "x"],
           .elem "span" [("style", "s2")] [.text "y"]]) =
        (.elem "p" [] [.elem "span" [("style", "s1")] [.text "x"],
          .elem "span" [("style", "s2")] [.text "y"]], false)) ∧
    (wsOnly "q" = false ∧
      merge_consecutive_spans (.elem "p" []
          [.elem "span" [("style", "s1")] [.text "x"], .text "q",
           .elem "span" [("style", "s1")] [.text "y"]]) =
        (.elem "p" [] [.elem "span" [("style", "s1")] [.text "x"], .text "q",
          .elem "span" [("style", "s1")] [.text "y"]], false)) :=
  ⟨⟨by decide, ((C8_no_merge.1 "s1" "s2" "x" "y") (by decide)).1⟩,
   ⟨by decide, ((C8_no_merge.2.1 "s1" "q" "x" "y") (by decide)).1⟩⟩

theorem containsL_append (q : Node → Bool) (a b : List Node) :
    containsL q (a ++ b) = (containsL q a || containsL q b) := by
  induction a with
  | nil => simp [containsL]
  | cons c cs ih => simp [containsL, ih, Bool.or_assoc]

theorem replaceFirstRL_found {α : Type} (p : Node → Bool) (f : Node → Node × α)
    (q : Node → Bool) (l : List Node)
    (hel : ∀ c ∈ l, ∀ r, replaceFirstR p f c = some r →
      ∃ b, p b = true ∧ r.2 = (f b).2 ∧
        (containsN q (f b).1 = true → containsN q r.1 = true)) :
    ∀ r, replaceFirstRL p f l = some r →
      ∃ b, p b = true ∧ r.2 = (f b).2 ∧
        (containsN q (f b).1 = true → containsL q r.1 = true) := by
  induction l with
  | nil => intro r h; simp [replaceFirstRL] at h
  | cons c rest ih =>
    intro r h
    simp only [replaceFirstRL] at h
    match hc : replaceFirstR p f c with
    | some rc =>
      rw [hc] at h
      obtain ⟨b, hb1, hb2, hb3⟩ := hel c (by simp) rc hc
      cases h
      exact ⟨b, hb1, hb2, fun hq => by simp [containsL, hb3 hq]⟩
    | none =>
      rw [hc] at h
      match hrl : replaceFirstRL p f rest with
      | some rl =>
        rw [hrl] at h
        obtain ⟨b, hb1, hb2, hb3⟩ := ih (fun c hc2 => hel c (by simp [hc2])) rl hrl
        cases h
        exact ⟨b, hb1, hb2, fun hq => by simp [containsL, hb3 hq]⟩
      | none => rw [hrl] at h; exact absurd h (by simp)

theorem replaceFirstR_found {α : Type} (p : Node → Bool) (f : Node → Node × α)
    (q : Node → Bool) :
    ∀ N t, size t ≤ N → ∀ r, replaceFirstR p f t = some r →
      ∃ b, p b = true ∧ r.2 = (f b).2 ∧
        (containsN q (f b).1 = true → containsN q r.1 = true) := by
  intro N
  induction N with
  | zero => intro t h; have := size_pos t; omega
  | succ N ih =>
    intro t ht r h
    match t with
    | .text s =>
      simp only [replaceFirstR] at h
      by_cases hp : p (.text s)
      · rw [if_pos hp] at h
        cases h
        exact ⟨.text s, by simp [hp], rfl, fun hq => hq⟩
      · rw [if_neg hp] at h
        exact absurd h (by simp)
    | .elem tg a cs =>
      simp only [replaceFirstR] at h
      by_cases hp : p (.elem tg a cs)
      · rw [if_pos hp] at h
        cases h
        exact ⟨.elem tg a cs, by simp [hp], rfl, fun hq => hq⟩
      · rw [if_neg hp] at h
        match hrl : replaceFirstRL p f cs with
        | some rl =>
          rw [hrl] at h
          obtain ⟨b, hb1, hb2, hb3⟩ := replaceFirstRL_found p f q cs
            (fun c hc => ih c (by
              have h1 := size_le_of_mem hc
              simp [size] at ht
              omega)) rl hrl
          cases h
          refine ⟨b, hb1, hb2, fun hq => ?_⟩
          simp [containsN, hb3 hq]
        | none => rw [hrl] at h; exact absurd h (by simp)

theorem replaceFirstRL_some {α : Type} (p : Node → Bool) (f : Node → Node × α)
    (l : List Node)
    (hel : ∀ c ∈ l, containsN p c = true → (replaceFirstR p f c).isSome = true) :
    containsL p l = true → (replaceFirstRL p f l).isSome = true := by
  induction l with
  | nil => intro h; simp [containsL] at h
  | cons c rest ih =>
    intro h
    simp only [containsL, Bool.or_eq_true] at h
    simp only [replaceFirstRL]
    match hc : replaceFirstR p f c with
    | some rc => simp
    | none =>
      rcases h with h | h
      · have := hel c (by simp) h
        rw [hc] at this
        exact absurd this (by simp)
      · have := ih (fun c hc2 => hel c (by simp [hc2])) h
        match hrl : replaceFirstRL p f rest with
        | some rl => simp
        | none => rw [hrl] at this; exact absurd this (by simp)

theorem replaceFirstR_some {α : Type} (p : Node → Bool) (f : Node → Node × α) :
    ∀ N t, size t ≤ N → containsN p t = true → (replaceFirstR p f t).isSome = true := by
  intro N
  induction N with
  | zero => intro t h; have := size_pos t; omega
  | succ N ih =>
    intro t ht h
    match t with
    | .text s =>
      simp only [containsN] at h
      simp [replaceFirstR, h]
    | .elem tg a cs =>
      simp only [containsN, Bool.or_eq_true] at h
      simp only [replaceFirstR]
      by_cases hp : p (.elem tg a cs)
      · simp [hp]
      · rw [if_neg hp]
        rcases h with h | h
        · exact absurd h hp
        · have := replaceFirstRL_some p f cs
            (fun c hc => ih c (by
              have h1 := size_le_of_mem hc
              simp [size] at ht
              omega)) h
          match hrl : replaceFirstRL p f cs with
          | some rl => simp
          | none => rw [hrl] at this; exact absurd this (by simp)

theorem replaceFirstRL_none {α : Type} (p : Node → Bool) (f : Node → Node × α)
    (l : List Node)
    (hel : ∀ c ∈ l, findFirst p c = none → replaceFirstR p f c = none) :
    findFirstL p l = none → replaceFirstRL p f l = none := by
  induction l with
  | nil => intro _; rfl
  | cons c rest ih =>
    intro h
    simp only [findFirstL] at h
    match hc : findFirst p c with
    | some b => rw [hc] at h; exact absurd h (by simp)
    | none =>
      rw [hc] at h
      simp only at h
      simp only [replaceFirstRL, hel c (by simp) hc,
        ih (fun c hc2 => hel c (by simp [hc2])) h]
      simp

theorem replaceFirstR_none {α : Type} (p : Node → Bool) (f : Node → Node × α) :
    ∀ N t, size t ≤ N → findFirst p t = none → replaceFirstR p f t = none := by
  intro N
  induction N with
  | zero => intro t h; have := size_pos t; omega
  | succ N ih =>
    intro t ht h
    match t with
    | .text s =>
      simp only [findFirst] at h
      by_cases hp : p (.text s)
      · rw [if_pos hp] at h; exact absurd h (by simp)
      · simp [replaceFirstR, hp]
    | .elem tg a cs =>
      simp only [findFirst] at h
      by_cases hp : p (.elem tg a cs)
      · rw [if_pos hp] at h; exact absurd h (by simp)
      · rw [if_neg hp] at h
        have := replaceFirstRL_none p f cs
          (fun c hc => ih c (by
            have h1 := size_le_of_mem hc
            simp [size] at ht
            omega)) h
        simp [replaceFirstR, hp, this]

theorem replaceFirstRL_of_find {α : Type} (p : Node → Bool) (f : Node → Node × α)
    (l : List Node) (b : Node)
    (hel : ∀ c ∈ l, findFirst p c = some b →
      ∃ t2, replaceFirstR p f c = some (t2, (f b).2) ∧ ((f b).1 = b → t2 = c)) :
    findFirstL p l = some b →
      ∃ l2, replaceFirstRL p f l = some (l2, (f b).2) ∧ ((f b).1 = b → l2 = l) := by
  induction l with
  | nil => intro h; simp [findFirstL] at h
  | cons c rest ih =>
    intro h
    simp only [findFirstL] at h
    match hc : findFirst p c with
    | some b2 =>
      rw [hc] at h
      cases h
      obtain ⟨t2, ht2, hid⟩ := hel c (by simp) hc
      refine ⟨t2 :: rest, ?_, ?_⟩
      · simp [replaceFirstRL, ht2]
      · intro hfb; rw [hid hfb]
    | none =>
      rw [hc] at h
      obtain ⟨l2, hl2, hid⟩ := ih (fun c hc2 => hel c (by simp [hc2])) h
      have hnone : replaceFirstR p f c = none := by
        match hrc : replaceFirstR p f c with
        | none => rfl
        | some rc =>
          have := replaceFirstR_none p f (size c) c le_rfl hc
          rw [hrc] at this
          exact absurd this (by simp)
      refine ⟨c :: l2, ?_, ?_⟩
      · simp [replaceFirstRL, hnone, hl2]
      · intro hfb; rw [hid hfb]

theorem replaceFirstR_of_find {α : Type} (p : Node → Bool) (f : Node → Node × α) :
    ∀ N t, size t ≤ N → ∀ b, findFirst p t = some b →
      ∃ t2, replaceFirstR p f t = some (t2, (f b).2) ∧ ((f b).1 = b → t2 = t) := by
  intro N
  induction N with
  | zero => intro t h; have := size_pos t; omega
  | succ N ih =>
    intro t ht b h
    match t with
    | .text s =>
      simp only [findFirst] at h
      by_cases hp : p (.text s)
      · rw [if_pos hp] at h
        cases h
        refine ⟨(f (.text s)).1, ?_, fun hfb => hfb⟩
        simp [replaceFirstR, hp]
      · rw [if_neg hp] at h; exact absurd h (by simp)
    | .elem tg a cs =>
      simp only [findFirst] at h
      by_cases hp : p (.elem tg a cs)
      · rw [if_pos hp] at h
        cases h
        refine ⟨(f (.elem tg a cs)).1, ?_, fun hfb => hfb⟩
        simp [replaceFirstR, hp]
      · rw [if_neg hp] at h
        obtain ⟨l2, hl2, hid⟩ := replaceFirstRL_of_find p f cs b
          (fun c hc => ih c (by
            have h1 := size_le_of_mem hc
            simp [size] at ht
            omega) b) h
        refine ⟨.elem tg a l2, ?_, fun hfb => by rw [hid hfb]⟩
        simp [replaceFirstR, hp, hl2]

theorem findFirst_sat (p : Node → Bool) :
    ∀ N t, size t ≤ N → ∀ b, findFirst p t = some b → p b = true := by
  intro N
  induction N with
  | zero => intro t h; have := size_pos t; omega
  | succ N ih =>
    intro t ht b h
    match t with
    | .text s =>
      simp only [findFirst] at h
      by_cases hp : p (.text s)
      · rw [if_pos hp] at h; cases h; simpa using hp
      · rw [if_neg hp] at h; exact absurd h (by simp)
    | .elem tg a cs =>
      simp only [findFirst] at h
      by_cases hp : p (.elem tg a cs)
      · rw [if_pos hp] at h; cases h; simpa using hp
      · rw [if_neg hp] at h
        clear hp
        induction cs with
        | nil => simp [findFirstL] at h
        | cons c rest ihl =>
          simp only [findFirstL] at h
          match hc : findFirst p c with
          | some b2 =>
            rw [hc] at h
            cases h
            exact ih c (by
              have h1 : size c ≤ sizeL (c :: rest) := size_le_of_mem (by simp)
              simp [size, sizeL] at ht ⊢
              omega) b hc
          | none =>
            rw [hc] at h
            exact ihl (by simp [size, sizeL] at ht ⊢; omega) h

theorem getAttr_setAttr (a : List (String × String)) (k v : String) :
    getAttr (setAttr a k v) k = some v := by
  rw [setAttr]
  by_cases hf : (a.find? (fun p => p.1 = k)).isSome
  · rw [if_pos hf]
    induction a with
    | nil => simp [List.find?] at hf
    | cons p rest ih =>
      by_cases hp : p.1 = k
      · simp [getAttr, List.find?, hp]
      · have hf2 : (rest.find? (fun p => p.1 = k)).isSome := by
          simp only [List.find?] at hf
          rw [show (decide (p.1 = k)) = false by simp [hp]] at hf
          exact hf
        have := ih hf2
        simp only [List.map_cons] at *
        rw [if_neg hp]
        simp only [getAttr, List.find?] at this ⊢
        rw [show (decide (p.1 = k)) = false by simp [hp]]
        exact this
  · rw [if_neg hf]
    induction a with
    | nil => simp [getAttr, List.find?]
    | cons p rest ih =>
      have hp : ¬(p.1 = k) := by
        intro hp
        apply hf
        simp [List.find?, hp]
      have hf2 : ¬(rest.find? (fun q => q.1 = k)).isSome := by
        intro hf2
        apply hf
        simp only [List.find?]
        match hd : decide (p.1 = k) with
        | true => simp
        | false => exact hf2
      have := ih hf2
      simp only [List.cons_append, getAttr, List.find?] at this ⊢
      rw [show (decide (p.1 = k)) = false by simp [hp]]
      exact this

theorem isPh_marked (ct : String) (ca : List (String × String)) (ccs : List Node) :
    isPh (.elem ct (setAttr ca phKey "true") ccs) = true := by
  simp only [isPh, getAttr_setAttr]
  simp

theorem headingBody_le (cfg : Config) (ins : Bool) (b : Node) :
    (headingBody cfg ins b).2.2 ≤ 1 := by
  match b with
  | .text s => simp [headingBody]
  | .elem t a cs =>
    simp only [headingBody]
    rcases hft : firstTag cs with _ | ⟨before, c, after⟩
    · simp
    · match c with
      | .text w => simp
      | .elem ct ca ccs =>
        by_cases hp : ct = "p"
        · subst hp
          by_cases he : pyStrip (getText (.elem "p" ca ccs)) = ""
          · simp [he]
          · by_cases hi : (ins && !(is_existing_chapter_heading
                (pyStrip (getText (.elem "p" ca ccs))) cfg.initial_chapter_text)) = true
            · simp [he, hi]
            · simp [he, hi]
        · simp [hp]

theorem headingBody_added (cfg : Config) (ins : Bool) (b : Node)
    (h : (headingBody cfg ins b).2.2 = 1) :
    containsN isPh (headingBody cfg ins b).1 = true := by
  match b with
  | .text s => simp [headingBody] at h
  | .elem t a cs =>
    simp only [headingBody] at h ⊢
    rcases hft : firstTag cs with _ | ⟨before, c, after⟩
    · rw [hft] at h; simp at h
    · rw [hft] at h
      match c with
      | .text w => simp at h
      | .elem ct ca ccs =>
        by_cases hp : ct = "p"
        · subst hp
          by_cases he : pyStrip (getText (.elem "p" ca ccs)) = ""
          · simp only [he, reduceIte]
            simp [containsN, containsL_append, containsL, isPh_marked]
          · by_cases hi : (ins && !(is_existing_chapter_heading
                (pyStrip (getText (.elem "p" ca ccs))) cfg.initial_chapter_text)) = true
            · simp only [he, hi, reduceIte]
              have hnew : isPh (.elem "p" [(phKey, "true")] []) = true := by
                simp [isPh, getAttr, phKey, List.find?]
              simp [containsN, containsL_append, containsL, hnew]
            · simp [he, hi] at h
        · simp [hp] at h

theorem add_le (t : Node) (cfg : Config) (ins : Bool) :
    (add_chapter_headings_with_config t cfg ins).2.2 ≤ 1 := by
  rw [add_chapter_headings_with_config]
  match hr : replaceFirstR isBody (headingBody cfg ins) t with
  | some r =>
    obtain ⟨b, _, hb2, _⟩ := replaceFirstR_found isBody (headingBody cfg ins)
      (fun _ => false) (size t) t le_rfl r hr
    simp only
    rw [hb2]
    exact headingBody_le cfg ins b
  | none => simp

theorem add_added_contains (t : Node) (cfg : Config) (ins : Bool)
    (h : (add_chapter_headings_with_config t cfg ins).2.2 = 1) :
    containsN isPh (add_chapter_headings_with_config t cfg ins).1 = true := by
  rw [add_chapter_headings_with_config] at h ⊢
  match hr : replaceFirstR isBody (headingBody cfg ins) t with
  | some r =>
    obtain ⟨b, _, hb2, hb3⟩ := replaceFirstR_found isBody (headingBody cfg ins)
      isPh (size t) t le_rfl r hr
    rw [hr] at h
    have h2 : r.2.2 = 1 := h
    rw [hb2] at h2
    show containsN isPh r.1 = true
    exact hb3 (headingBody_added cfg ins b h2)
  | none => rw [hr] at h; simp at h

/-- C3: for every document tree, counter value and configuration,
`process_xhtml_content_with_config` returns the input counter plus the
number of headings produced, which is 0 or 1; in particular the counter is
never decremented and never increases by more than 1 per document. -/
theorem C3_counter (t : Node) (c : Nat) (cfg : Config) (sc sa : Bool) :
    (process_xhtml_content_with_config t c cfg sc sa).2 =
      c + headings_produced t cfg sc sa ∧
    headings_produced t cfg sc sa ≤ 1 ∧
    c ≤ (process_xhtml_content_with_config t c cfg sc sa).2 := by
  have main : (process_xhtml_content_with_config t c cfg sc sa).2 =
      c + headings_produced t cfg sc sa ∧
      headings_produced t cfg sc sa ≤ 1 := by
    rw [process_xhtml_content_with_config, headings_produced]
    cases sa
    · simp
    · simp only [if_pos]
      have hle := add_le (if sc then (merge_consecutive_spans t).1 else t) cfg
        cfg.insert_heading
      have h01 : (add_chapter_headings_with_config
          (if sc then (merge_consecutive_spans t).1 else t) cfg cfg.insert_heading).2.2 = 0 ∨
          (add_chapter_headings_with_config
          (if sc then (merge_consecutive_spans t).1 else t) cfg cfg.insert_heading).2.2 = 1 := by
        omega
      rcases h01 with h0 | h1
      · simp [h0]
      · have hcont := add_added_contains (if sc then (merge_consecutive_spans t).1 else t)
          cfg cfg.insert_heading h1
        have hsome := replaceFirstR_some isPh (fillPh cfg c)
          (size (add_chapter_headings_with_config
            (if sc then (merge_consecutive_spans t).1 else t) cfg cfg.insert_heading).1) _
          le_rfl hcont
        obtain ⟨r2, hr2⟩ := Option.isSome_iff_exists.mp hsome
        simp [h1, hr2]
  refine ⟨main.1, main.2, ?_⟩
  rw [main.1]
  omega

/-- C4: for a document whose body children are `<p></p><p>x</p>`, the
heading pass with the default configuration (prefix "Chapter", numeric
numbering style, no trailing text) and counter 5 converts the first, empty
paragraph into one whose text is "Chapter 5", reports one heading produced,
and returns counter 6. -/
theorem C4_concrete :
    process_xhtml_content_with_config
      (.elem "html" [] [.elem "body" [] [.elem "p" [] [], .elem "p" [] [.text "x"]]])
      5 {} false true =
    (.elem "html" [] [.elem "body" []
      [.elem "p" [] [.text "Chapter 5"], .elem "p" [] [.text "x"]]], 6) ∧
    (add_chapter_headings_with_config
      (.elem "html" [] [.elem "body" [] [.elem "p" [] [], .elem "p" [] [.text "x"]]])
      {} ({} : Config).insert_heading).2.2 = 1 :=
  ⟨rfl, rfl⟩

/-- C5: whenever the first element child of the body is a paragraph with
non-empty text that the heading recognizer classifies as an existing
chapter heading, the heading pass with insert-even-if-non-empty enabled
makes no change to the tree and produces no heading. -/
theorem C5_existing_heading (t : Node) (cfg : Config) (ba : List (String × String))
    (cs pre2 post2 : List Node) (pa : List (String × String)) (pcs : List Node)
    (hfind : findFirst isBody t = some (.elem "body" ba cs))
    (hft : firstTag cs = some (pre2, .elem "p" pa pcs, post2))
    (hne : pyStrip (getText (.elem "p" pa pcs)) ≠ "")
    (hex : is_existing_chapter_heading (pyStrip (getText (.elem "p" pa pcs)))
      cfg.initial_chapter_text = true) :
    add_chapter_headings_with_config t cfg true = (t, false, 0) := by
  have hbody : headingBody cfg true (.elem "body" ba cs) = (.elem "body" ba cs, (false, 0)) := by
    simp only [headingBody, hft]
    simp [hne, hex]
  obtain ⟨t2, ht2, hid⟩ := replaceFirstR_of_find isBody (headingBody cfg true)
    (size t) t le_rfl _ hfind
  rw [add_chapter_headings_with_config, ht2]
  have ht2t : t2 = t := hid (by rw [hbody])
  rw [hbody] at ht2 ⊢
  simp [ht2t]

/-- Witness for C5 at a concrete document whose first paragraph reads
"Chapter 1". -/
theorem C5_existing_heading_witness :
    (findFirst isBody
        (.elem "html" [] [.elem "body" []
          [.elem "p" [] [.text "Chapter 1"], .elem "p" [] [.text "more"]]]) =
      some (.elem "body" []
        [.elem "p" [] [.text "Chapter 1"], .elem "p" [] [.text "more"]]) ∧
     firstTag [.elem "p" [] [.text "Chapter 1"], .elem "p" [] [.text "more"]] =
      some ([], .elem "p" [] [.text "Chapter 1"], [.elem "p" [] [.text "more"]]) ∧
     pyStrip (getText (.elem "p" [] [.text "Chapter 1"])) ≠ "" ∧
     is_existing_chapter_heading (pyStrip (getText (.elem "p" [] [.text "Chapter 1"])))
       ({} : Config).initial_chapter_text = true) ∧
    add_chapter_headings_with_config
      (.elem "html" [] [.elem "body" []
        [.elem "p" [] [.text "Chapter 1"], .elem "p" [] [.text "more"]]]) {} true =
    (.elem "html" [] [.elem "body" []
      [.elem "p" [] [.text "Chapter 1"], .elem "p" [] [.text "more"]]], false, 0) :=
  ⟨⟨by decide, by decide, by decide, by decide⟩,
   C5_existing_heading
     (.elem "html" [] [.elem "body" []
       [.elem "p" [] [.text "Chapter 1"], .elem "p" [] [.text "more"]]])
     {} []
     [.elem "p" [] [.text "Chapter 1"], .elem "p" [] [.text "more"]]
     [] [.elem "p" [] [.text "more"]] [] [.text "Chapter 1"]
     (by decide) (by decide) (by decide) (by decide)⟩

theorem spanCountL_append (a b : List Node) :
    spanCountL (a ++ b) = spanCountL a + spanCountL b := by
  induction a with
  | nil => simp [spanCountL]
  | cons c cs ih => simp [spanCountL, ih]; omega

theorem spanCountL_map_textf (f : String → String) (g : List String) :
    spanCountL (g.map (fun w => Node.text (f w))) = 0 := by
  induction g with
  | nil => rfl
  | cons w g ih => simp [spanCountL, spanCountN, ih]

theorem collectRun1_count (nrm : String → String) (s : String) :
    ∀ l gap more rem, collectRun1 nrm s gap l = some (more, rem) →
      ∃ k, 1 ≤ k ∧ spanCountL l = spanCountL more + spanCountL rem + k := by
  intro l
  induction l with
  | nil => intro gap more rem h; simp [collectRun1] at h
  | cons c rest ih =>
    intro gap more rem h
    match c with
    | .text w =>
      simp only [collectRun1] at h
      by_cases hw : wsOnly w
      · rw [if_pos hw] at h
        obtain ⟨k, hk1, hk2⟩ := ih (gap ++ [w]) more rem h
        exact ⟨k, hk1, by simp [spanCountL, spanCountN]; omega⟩
      · rw [if_neg hw] at h; exact absurd h (by simp)
    | .elem tag2 a2 cs2 =>
      simp only [collectRun1] at h
      by_cases ht : tag2 = "span"
      · rw [if_pos ht] at h
        match hs : getAttr a2 "style" with
        | some s2 =>
          rw [hs] at h
          simp only at h
          by_cases he : s2 = s
          · rw [if_pos he] at h
            match hin : collectRun1 nrm s [] rest with
            | some r2 =>
              rw [hin] at h
              simp only [Option.some.injEq] at h
              obtain ⟨k, hk1, hk2⟩ := ih [] r2.1 r2.2 (by rw [hin])
              refine ⟨k + 1, by omega, ?_⟩
              injection h with h1 h2
              subst h1
              subst h2
              simp [spanCountL, spanCountN, spanCountL_append, spanCountL_map_textf, ht]
              omega
            | none =>
              rw [hin] at h
              simp only [Option.some.injEq] at h
              refine ⟨1, le_rfl, ?_⟩
              injection h with h1 h2
              subst h1
              subst h2
              simp [spanCountL, spanCountN, spanCountL_append, spanCountL_map_textf, ht]
              omega
          · rw [if_neg he] at h; exact absurd h (by simp)
        | none => rw [hs] at h; exact absurd h (by simp)
      · rw [if_neg ht] at h; exact absurd h (by simp)

theorem step_decrease (nrm : String → String) :
    ∀ N : Nat,
      (∀ c rest i l2, size c ≤ N → stepN nrm c rest i = some l2 →
        spanCountL l2 < spanCountN c + spanCountL rest) ∧
      (∀ l i l2, sizeL l ≤ N → stepL nrm l i = some l2 →
        spanCountL l2 < spanCountL l) := by
  intro N
  induction N with
  | zero =>
    constructor
    · intro c _ _ _ hc; have := size_pos c; omega
    · intro l i l2 hl h
      have : l = [] := by
        match l with
        | [] => rfl
        | c :: rest => have := size_pos c; simp [sizeL] at hl; omega
      subst this
      simp [stepL] at h
  | succ N ih =>
    have hA : ∀ c rest i l2, size c ≤ N + 1 → stepN nrm c rest i = some l2 →
        spanCountL l2 < spanCountN c + spanCountL rest := by
      intro c rest i l2 hc h
      match c with
      | .text w => simp [stepN] at h
      | .elem tag a ch =>
        simp only [stepN] at h
        by_cases ht : tag = "span"
        · rw [if_pos ht] at h
          by_cases hi : i = 0
          · rw [if_pos hi] at h
            match hs : getAttr a "style" with
            | some s =>
              rw [hs] at h
              simp only at h
              match hcr : collectRun1 nrm s [] rest with
              | some r =>
                rw [hcr] at h
                simp only [Option.some.injEq] at h
                obtain ⟨k, hk1, hk2⟩ := collectRun1_count nrm s rest [] r.1 r.2 (by rw [hcr])
                rw [← h]
                simp [spanCountL, spanCountN, spanCountL_append, ht]
                omega
              | none => rw [hcr] at h; exact absurd h (by simp)
            | none => rw [hs] at h; exact absurd h (by simp)
          · rw [if_neg hi] at h
            match hst : stepL nrm ch (i - 1) with
            | some r =>
              rw [hst] at h
              simp only [Option.map_some', Option.some.injEq] at h
              have hlt := ih.2 ch (i - 1) r (by simp [size] at hc; omega) hst
              rw [← h]
              simp [spanCountL, spanCountN, ht]
              omega
            | none => rw [hst] at h; exact absurd h (by simp)
        · rw [if_neg ht] at h
          match hst : stepL nrm ch i with
          | some r =>
            rw [hst] at h
            simp only [Option.map_some', Option.some.injEq] at h
            have hlt := ih.2 ch i r (by simp [size] at hc; omega) hst
            rw [← h]
            simp [spanCountL, spanCountN, ht]
            omega
          | none => rw [hst] at h; exact absurd h (by simp)
    refine ⟨hA, ?_⟩
    intro l
    induction l with
    | nil => intro i l2 _ h; simp [stepL] at h
    | cons c rest ihl =>
      intro i l2 hl h
      simp only [stepL] at h
      by_cases hi : i < spanCountN c
      · rw [if_pos hi] at h
        have := hA c rest i l2 (by
          have := size_le_of_mem (List.mem_cons_self c rest)
          simp [sizeL] at hl
          omega) h
        simp [spanCountL]
        omega
      · rw [if_neg hi] at h
        match hst : stepL nrm rest (i - spanCountN c) with
        | some r =>
          rw [hst] at h
          simp only [Option.map_some', Option.some.injEq] at h
          have hlt := ihl (i - spanCountN c) r (by
            have := size_pos c
            simp [sizeL] at hl ⊢
            omega) hst
          rw [← h]
          simp [spanCountL]
          omega
        | none => rw [hst] at h; exact absurd h (by simp)

theorem mergeLoopF_terminates (nrm : String → String) :
    ∀ S : Nat, ∀ cs : List Node, spanCountL cs ≤ S → ∀ i ch,
      ∃ fuel r, mergeLoopF nrm fuel cs i ch = some r := by
  intro S
  induction S with
  | zero =>
    intro cs hcs i ch
    refine ⟨1, (cs, ch), ?_⟩
    simp only [mergeLoopF]
    rw [if_neg (by omega)]
  | succ S ihS =>
    intro cs hcs i ch
    have hinner : ∀ d, spanCountL cs - i ≤ d → ∀ ch2, ∃ fuel r,
        mergeLoopF nrm fuel cs i ch2 = some r → True := fun _ _ _ => ⟨1, (cs, ch), fun _ => trivial⟩
    clear hinner
    have main : ∀ d i2 ch2, spanCountL cs - i2 ≤ d →
        ∃ fuel r, mergeLoopF nrm fuel cs i2 ch2 = some r := by
      intro d
      induction d with
      | zero =>
        intro i2 ch2 hd
        refine ⟨1, (cs, ch2), ?_⟩
        simp only [mergeLoopF]
        rw [if_neg (by omega)]
      | succ d ihd =>
        intro i2 ch2 hd
        by_cases hlt : i2 < spanCountL cs
        · match hst : stepL nrm cs i2 with
          | some cs2 =>
            have hdec := (step_decrease nrm (sizeL cs)).2 cs i2 cs2 le_rfl hst
            obtain ⟨fuel, r, hr⟩ := ihS cs2 (by omega) i2 true
            refine ⟨fuel + 1, r, ?_⟩
            simp only [mergeLoopF]
            rw [if_pos hlt, hst]
            exact hr
          | none =>
            obtain ⟨fuel, r, hr⟩ := ihd (i2 + 1) ch2 (by omega)
            refine ⟨fuel + 1, r, ?_⟩
            simp only [mergeLoopF]
            rw [if_pos hlt, hst]
            exact hr
        · refine ⟨1, (cs, ch2), ?_⟩
          simp only [mergeLoopF]
          rw [if_neg hlt]
    exact main (spanCountL cs) i ch (by omega)

theorem mergeLoopF_mono (nrm : String → String) :
    ∀ fuel : Nat, ∀ cs i ch r fuel2, fuel ≤ fuel2 →
      mergeLoopF nrm fuel cs i ch = some r → mergeLoopF nrm fuel2 cs i ch = some r := by
  intro fuel
  induction fuel with
  | zero => intro cs i ch r fuel2 _ h; simp [mergeLoopF] at h
  | succ f ih =>
    intro cs i ch r fuel2 hle h
    match fuel2, hle with
    | f2 + 1, hle =>
      simp only [mergeLoopF] at h ⊢
      by_cases hi : i < spanCountL cs
      · rw [if_pos hi] at h ⊢
        match hst : stepL nrm cs i with
        | some cs2 =>
          rw [hst] at h
          exact ih cs2 i true r f2 (by omega) h
        | none =>
          rw [hst] at h
          exact ih cs (i + 1) ch r f2 (by omega) h
      · rw [if_neg hi] at h ⊢
        exact h

/-- C9: the scan loop of `merge_consecutive_spans` (restart at the same
index after each merge, recomputing the span list after every merge)
terminates on every finite document tree: some fuel bound makes
`merge_loop` return, and every larger fuel returns the same result, so the
loop genuinely runs to completion (the index has passed every span without
finding a run of length > 1 to merge). -/
theorem C9_loop_terminates (t : Node) :
    ∃ fuel r, ∀ fuel2, fuel ≤ fuel2 → merge_loop normWS fuel2 t = some r := by
  match t with
  | .text s => exact ⟨1, (.text s, false), fun f2 _ => rfl⟩
  | .elem tg a cs =>
    obtain ⟨fuel, r, hr⟩ := mergeLoopF_terminates normWS (spanCountL cs) cs le_rfl 0 false
    refine ⟨fuel, (.elem tg a r.1, r.2), ?_⟩
    intro fuel2 hle
    have := mergeLoopF_mono normWS fuel cs 0 false r fuel2 hle hr
    simp [merge_loop, this]

/-- C10: the two `merge_consecutive_spans` implementations are not
extensionally equal; they diverge on the whitespace separator of
test_epub_cleanup.py's newline test case.  The standalone implementation
(epub_cleanup.py) copies the separator " \n" verbatim into the merged span,
so the merged text still contains the newline, while the plugin
implementation (cleanup.py, documented as the shared core and asserted by
that very test to convert newlines to spaces) replaces the newline with a
space. -/
theorem C10_divergent_normalisation :
    merge_consecutive_spans_std
      (.elem "div" [] [.elem "span" [("style", "span2")] [.text "I"], .text " \n",
        .elem "span" [("style", "span2")] [.text "am badly"],
        .elem "span" [("style", "span2")] [.text " formatted"]]) =
      (.elem "div" [] [.elem "span" [("style", "span2")]
        [.text "I", .text " \n", .text "am badly", .text " formatted"]], true) ∧
    merge_consecutive_spans
      (.elem "div" [] [.elem "span" [("style", "span2")] [.text "I"], .text " \n",
        .elem "span" [("style", "span2")] [.text "am badly"],
        .elem "span" [("style", "span2")] [.text " formatted"]]) =
      (.elem "div" [] [.elem "span" [("style", "span2")]
        [.text "I", .text "  ", .text "am badly", .text " formatted"]], true) ∧
    merge_consecutive_spans
      (.elem "div" [] [.elem "span" [("style", "span2")] [.text "I"], .text " \n",
        .elem "span" [("style", "span2")] [.text "am badly"],
        .elem "span" [("style", "span2")] [.text " formatted"]]) ≠
    merge_consecutive_spans_std
      (.elem "div" [] [.elem "span" [("style", "span2")] [.text "I"], .text " \n",
        .elem "span" [("style", "span2")] [.text "am badly"],
        .elem "span" [("style", "span2")] [.text " formatted"]]) ∧
    getText (.elem "span" [("style", "span2")]
      [.text "I", .text " \n", .text "am badly", .text " formatted"]) =
      "I \nam badly formatted" :=
  ⟨rfl, rfl, by decide, rfl⟩

end EpubCleanup
